import Mathlib

/-!
# File analysis service (`fIle_analysis/main.go`)

A shallow embedding of the analysis-and-similarity core of the service:
`analyzeText`, `analyzeHandler`, `compareStats`, `compareHandler`,
`generateFingerprint` and `min`, together with the pieces of the Go standard
library they call (`utf8.DecodeRune`, `bufio.Scanner` with `bufio.ScanWords`,
`strings.Count`, `strings.TrimSpace`, `strings.ToLower`, `strings.TrimFunc`,
`strings.TrimPrefix`).

Modelling conventions.

* A Go `string` / `[]byte` is the list of its bytes (`GoString`).  The library
  functions that work rune by rune are given on the runes `utf8.DecodeRune`
  yields (`decodeRunes`); a word that has gone through `strings.ToLower` is
  valid UTF-8 and is represented by the list of its code points.
* `bufio.Scanner` is modelled with its default buffer limit
  `bufio.MaxScanTokenSize` (`scanFrom`), since `analyzeText` does not look at
  `scanner.Err()`.
* In `compareStats` Go `int` wraps to 64 bits (`wrapInt`) and every `float64`
  operation is rounded to nearest, ties to even (`toFloat64`).  The counters of
  `analyzeText` are `Int`: they never exceed the number of bytes of the text
  (`analyzeText_WordCount_le`), which in Go is below `2^63`.
* A Go `map` is a list of key/value pairs without repeated keys (`GoMap`); the
  order of the pairs is the order of first insertion and carries no meaning
  (`compareStats_ext`).
* The Unicode tables for code points from `0x80` on, and SHA-256, are
  parameters.
-/

namespace FileAnalysis

/-! ## Go maps -/

/-- Value stored under `k` in a list of pairs, reading the first match. -/
def lookupList {κ ν : Type} [DecidableEq κ] : List (κ × ν) → κ → Option ν
  | [], _ => none
  | (k', v) :: l, k => if k' = k then some v else lookupList l k

/-- Store `v` under `k` in a list of pairs: overwrite the pair that has the key, or
add a new pair. -/
def setList {κ ν : Type} [DecidableEq κ] : List (κ × ν) → κ → ν → List (κ × ν)
  | [], k, v => [(k, v)]
  | (k', v') :: l, k, v => if k' = k then (k, v) :: l else (k', v') :: setList l k v

theorem keys_setList {κ ν : Type} [DecidableEq κ] (l : List (κ × ν)) (k : κ) (v : ν) :
    (setList l k v).map Prod.fst
      = if k ∈ l.map Prod.fst then l.map Prod.fst else l.map Prod.fst ++ [k] := by
  induction l with
  | nil => simp [setList]
  | cons p l ih =>
    obtain ⟨k', v'⟩ := p
    by_cases h : k' = k
    · subst h; simp [setList]
    · have h' : ¬ k = k' := fun e => h e.symm
      by_cases hm : k ∈ l.map Prod.fst
      · simp only [setList, h, if_false, List.map_cons, ih, hm, if_true, List.mem_cons, or_true]
      · simp only [setList, h, if_false, List.map_cons, ih, hm, List.mem_cons, h', or_self,
          List.cons_append]

theorem nodup_setList {κ ν : Type} [DecidableEq κ] (l : List (κ × ν)) (k : κ) (v : ν)
    (h : (l.map Prod.fst).Nodup) : ((setList l k v).map Prod.fst).Nodup := by
  rw [keys_setList]
  split
  · exact h
  · rename_i hk
    rw [List.nodup_append]
    refine ⟨h, List.nodup_singleton k, ?_⟩
    intro a ha hb
    rw [List.mem_singleton] at hb
    subst hb
    exact hk ha

/-- A Go `map[κ]ν`: finitely many pairs, each key at most once. -/
structure GoMap (κ ν : Type) where
  entries : List (κ × ν)
  nodupKeys : (entries.map Prod.fst).Nodup

namespace GoMap

variable {κ ν μ : Type} [DecidableEq κ]

/-- `make(map[κ]ν)`. -/
def empty : GoMap κ ν := ⟨[], List.nodup_nil⟩

/-- `v, ok := m[k]`. -/
def get? (m : GoMap κ ν) (k : κ) : Option ν := lookupList m.entries k

/-- `m[k]` read as a value: the zero value `d` when the key is absent. -/
def getD (m : GoMap κ ν) (k : κ) (d : ν) : ν := (m.get? k).getD d

/-- `m[k] = v`. -/
def set (m : GoMap κ ν) (k : κ) (v : ν) : GoMap κ ν :=
  ⟨setList m.entries k v, nodup_setList m.entries k v m.nodupKeys⟩

/-- `len(m)`. -/
def len (m : GoMap κ ν) : Int := m.entries.length

/-- The keys of the map. -/
def keys (m : GoMap κ ν) : List κ := m.entries.map Prod.fst

end GoMap

/-! ## Strings, runes and the Unicode tables -/

/-- A Go `string` or `[]byte`: its bytes. -/
abbrev GoString := List Nat

/-- A Go `rune`: a code point. -/
abbrev Rune := Nat

/-- The bytes of an ASCII literal. -/
def ascii (s : String) : GoString := s.toList.map Char.toNat

/-- `utf8.RuneError`, the replacement character. -/
def RuneError : Rune := 0xFFFD

/-- A UTF-8 continuation byte, `0x80..0xBF`. -/
def isCont (b : Nat) : Bool := 0x80 ≤ b && b ≤ 0xBF

/-- `utf8.DecodeRune`: the first rune of `p` and its width in bytes; an invalid or
truncated encoding decodes to `RuneError` of width 1. -/
def decodeRune : GoString → Rune × Nat
  | [] => (RuneError, 0)
  | p0 :: rest =>
    if p0 < 0x80 then (p0, 1)
    else if p0 < 0xC2 then (RuneError, 1)
    else if p0 < 0xE0 then
      match rest with
      | b1 :: _ =>
        if isCont b1 then (p0 % 0x20 * 0x40 + b1 % 0x40, 2) else (RuneError, 1)
      | _ => (RuneError, 1)
    else if p0 < 0xF0 then
      match rest with
      | b1 :: b2 :: _ =>
        if (if p0 = 0xE0 then 0xA0 else 0x80) ≤ b1 ∧ b1 ≤ (if p0 = 0xED then 0x9F else 0xBF)
            ∧ isCont b2 then
          (p0 % 0x10 * 0x1000 + b1 % 0x40 * 0x40 + b2 % 0x40, 3)
        else (RuneError, 1)
      | _ => (RuneError, 1)
    else if p0 < 0xF5 then
      match rest with
      | b1 :: b2 :: b3 :: _ =>
        if (if p0 = 0xF0 then 0x90 else 0x80) ≤ b1 ∧ b1 ≤ (if p0 = 0xF4 then 0x8F else 0xBF)
            ∧ isCont b2 ∧ isCont b3 then
          (p0 % 0x08 * 0x40000 + b1 % 0x40 * 0x1000 + b2 % 0x40 * 0x40 + b3 % 0x40, 4)
        else (RuneError, 1)
      | _ => (RuneError, 1)
    else (RuneError, 1)

/-- Decoding loop: `skip` bytes of the rune decoded last are still to be passed over. -/
def decodeFrom : Nat → GoString → List (Rune × Nat)
  | _, [] => []
  | skip + 1, _ :: rest => decodeFrom skip rest
  | 0, p0 :: rest =>
    decodeRune (p0 :: rest) :: decodeFrom ((decodeRune (p0 :: rest)).2 - 1) rest

/-- The runes of a string with their widths, as `for range`, `[]rune(s)` and the
scanner see them. -/
def decodeRunes (s : GoString) : List (Rune × Nat) := decodeFrom 0 s

/-- White space: `isSpace` of `bufio` (`scan.go`), the same set as `unicode.IsSpace`. -/
def isSpace (r : Rune) : Bool :=
  r = 0x20 || (0x09 ≤ r && r ≤ 0x0D) || r = 0x85 || r = 0xA0 || r = 0x1680
    || (0x2000 ≤ r && r ≤ 0x200A) || r = 0x2028 || r = 0x2029 || r = 0x202F
    || r = 0x205F || r = 0x3000

/-- The tables of package `unicode` for the code points from `0x80` on. -/
structure UnicodeTables where
  letter : Rune → Bool
  number : Rune → Bool
  lower : Rune → Rune

/-- `unicode.IsLetter`. -/
def IsLetter (U : UnicodeTables) (r : Rune) : Bool :=
  if r < 0x80 then (0x41 ≤ r && r ≤ 0x5A) || (0x61 ≤ r && r ≤ 0x7A) else U.letter r

/-- `unicode.IsNumber`. -/
def IsNumber (U : UnicodeTables) (r : Rune) : Bool :=
  if r < 0x80 then 0x30 ≤ r && r ≤ 0x39 else U.number r

/-- `unicode.ToLower`. -/
def ToLower (U : UnicodeTables) (r : Rune) : Rune :=
  if r < 0x80 then (if 0x41 ≤ r ∧ r ≤ 0x5A then r + 0x20 else r) else U.lower r

/-! ## Library functions on strings -/

/-- Counting loop of `strings.Count`: `skip` bytes of the instance found last are
still to be passed over. -/
def countFrom (substr : GoString) : Nat → GoString → Nat
  | _, [] => 0
  | skip + 1, _ :: rest => countFrom substr skip rest
  | 0, c :: rest =>
    if substr.isPrefixOf (c :: rest) then 1 + countFrom substr (substr.length - 1) rest
    else countFrom substr 0 rest

/-- `strings.Count(s, substr)` for a non-empty `substr`: the number of
non-overlapping instances of `substr` in `s`. -/
def Count (s substr : GoString) : Nat := countFrom substr 0 s

/-- `strings.TrimFunc(s, f)` on the runes of `s`: the leading and the trailing runes
that satisfy `f` are removed. -/
def TrimFunc {α : Type} (s : List α) (f : α → Bool) : List α :=
  ((s.dropWhile f).reverse.dropWhile f).reverse

/-- `strings.TrimSpace(s)` on the runes of `s`. -/
def TrimSpace (s : List (Rune × Nat)) : List (Rune × Nat) :=
  TrimFunc s (fun r => isSpace r.1)

/-- `strings.ToLower(s)` on the runes of `s`. -/
def stringsToLower (U : UnicodeTables) (s : List Rune) : List Rune := s.map (ToLower U)

/-- `strings.TrimPrefix(s, prefix)`. -/
def TrimPrefix (s pre : GoString) : GoString :=
  if pre.isPrefixOf s then s.drop pre.length else s

/-! ## The word scanner -/

/-- `bufio.MaxScanTokenSize`: the size the buffer of a `bufio.Scanner` may grow to. -/
def MaxScanTokenSize : Nat := 64 * 1024

/-- The loop `for scanner.Scan() { ... scanner.Text() ... }` of a `bufio.Scanner` with
split function `bufio.ScanWords` over a `strings.Reader`: the tokens handed to the
loop body, and whether scanning ended in `bufio.ErrTooLong`.

`word` holds the runes of the token being read, last rune first, and `n` its length
in bytes.  A token is delivered when it and the white-space rune that ends it lie
within the first `MaxScanTokenSize` bytes from the start of the token, or when the
input ends less than `MaxScanTokenSize` bytes after the start of the token; otherwise
the buffer is full without a token, `Scan` reports `ErrTooLong` and returns `false`. -/
def scanFrom : List (Rune × Nat) → List Rune → Nat → List (List Rune) × Bool
  | [], word, n =>
    if word = [] then ([], false)
    else if n < MaxScanTokenSize then ([word.reverse], false)
    else ([], true)
  | (r, width) :: rest, word, n =>
    if isSpace r then
      if word = [] then scanFrom rest [] 0
      else if n + width ≤ MaxScanTokenSize then
        (word.reverse :: (scanFrom rest [] 0).1, (scanFrom rest [] 0).2)
      else ([], true)
    else scanFrom rest (r :: word) (n + width)

/-- The tokens `scanner.Text()` takes in the loop of `analyzeText`. -/
def scanWords (content : GoString) : List (List Rune) :=
  (scanFrom (decodeRunes content) [] 0).1

/-- Whether `scanner.Err()` is `bufio.ErrTooLong` after the loop. -/
def scanErr (content : GoString) : Bool :=
  (scanFrom (decodeRunes content) [] 0).2

/-! ## `analyzeText` -/

/-- `AnalysisResult` of `main.go`. -/
structure AnalysisResult where
  CharCount : Int
  WordCount : Int
  ParaCount : Int
  UniqueWords : Int
  Fingerprint : GoString
  WordFrequency : GoMap (List Rune) Int

/-- The function literal handed to `strings.TrimFunc` in `analyzeText`. -/
def notLetterOrNumber (U : UnicodeTables) (r : Rune) : Bool :=
  !IsLetter U r && !IsNumber U r

/-- One turn of the loop of `analyzeText` on the pair `(stats.WordCount, wordSet)`. -/
def countWord (U : UnicodeTables) (st : Int × GoMap (List Rune) Int) (text : List Rune) :
    Int × GoMap (List Rune) Int :=
  let word := stringsToLower U text
  let word := TrimFunc word (notLetterOrNumber U)
  if word.length > 0 then (st.1 + 1, st.2.set word (st.2.getD word 0 + 1)) else st

/-- `generateFingerprint`: the SHA-256 digest of the content in hexadecimal. -/
def generateFingerprint (sha256Hex : GoString → GoString) (content : GoString) : GoString :=
  sha256Hex content

/-- `analyzeText`. -/
def analyzeText (U : UnicodeTables) (sha256Hex : GoString → GoString) (content : GoString) :
    AnalysisResult :=
  let paraCount : Int :=
    if (TrimSpace (decodeRunes content)).length = 0 then 0
    else (Count content (ascii "\n\n") : Int) + 1
  let loop := (scanWords content).foldl (countWord U) (0, GoMap.empty)
  { CharCount := (decodeRunes content).length
    WordCount := loop.1
    ParaCount := paraCount
    UniqueWords := loop.2.len
    Fingerprint := sha256Hex content
    WordFrequency := loop.2 }

/-! ## Machine arithmetic -/

/-- Go `int` on a 64-bit platform: the value of `x` after wrapping to 64 bits. -/
def wrapInt (x : Int) : Int := (x + 2 ^ 63) % 2 ^ 64 - 2 ^ 63

/-- Round to the nearest integer, ties to the even one. -/
def roundEven (x : ℚ) : Int :=
  if x - ⌊x⌋ < 1 / 2 then ⌊x⌋
  else if 1 / 2 < x - ⌊x⌋ then ⌊x⌋ + 1
  else if ⌊x⌋ % 2 = 0 then ⌊x⌋ else ⌊x⌋ + 1

/-- The `float64` nearest to `x`: a significand of 53 bits, rounded to nearest, ties to
even.  The exponent range of `float64` is not modelled: the values rounded below are
integers of 64 bits, quotients of two of them, and their products with 100. -/
def toFloat64 (x : ℚ) : ℚ :=
  if x = 0 then 0
  else roundEven (x / 2 ^ (Int.log 2 |x| - 52)) * 2 ^ (Int.log 2 |x| - 52)

/-- The largest `float64` below 1. -/
def predOne : ℚ := 1 - 1 / 2 ^ 53

/-! ## `compareStats` -/

/-- `min` of `main.go`. -/
def min (a b : Int) : Int := if a < b then a else b

/-- The value of `commonWords` after the loop of `compareStats`; every
`commonWords += min(countA, countB)` wraps to 64 bits. -/
def commonWords (a b : AnalysisResult) : Int :=
  a.WordFrequency.entries.foldl
    (fun common e =>
      match b.WordFrequency.get? e.1 with
      | some countB => wrapInt (common + min e.2 countB)
      | none => common)
    0

/-- `compareStats`: the sums `a.WordCount + b.WordCount` and `2*commonWords` wrap to 64
bits, and the two conversions to `float64`, the quotient and the product with 100 are each
rounded. -/
def compareStats (a b : AnalysisResult) : ℚ :=
  let totalWords := wrapInt (a.WordCount + b.WordCount)
  if totalWords = 0 then 0
  else
    toFloat64
      (toFloat64
          (toFloat64 ((wrapInt (2 * commonWords a b) : Int) : ℚ)
            / toFloat64 ((totalWords : Int) : ℚ))
        * 100)

/-! ## The handlers -/

/-- What a handler writes: a JSON body with status 200, or `http.Error`. -/
inductive Response (α : Type) where
  | ok (body : α)
  | error (message : String) (code : Nat)

/-- `http.StatusBadRequest`. -/
def StatusBadRequest : Nat := 400

/-- `http.StatusNotFound`. -/
def StatusNotFound : Nat := 404

/-- `http.StatusOK`. -/
def StatusOK : Nat := 200

/-- The status code of a response. -/
def Response.status {α : Type} : Response α → Nat
  | Response.ok _ => StatusOK
  | Response.error _ code => code

/-- The index `fileStats`. -/
abbrev Index := GoMap GoString AnalysisResult

/-- `analyzeHandler`: the response and the index afterwards.  `body` is what
`io.ReadAll(r.Body)` yields, `none` when it fails. -/
def analyzeHandler (U : UnicodeTables) (sha256Hex : GoString → GoString) (fileStats : Index)
    (body : Option GoString) : Response AnalysisResult × Index :=
  match body with
  | none => (Response.error "Error reading content" StatusBadRequest, fileStats)
  | some content =>
    let stats := analyzeText U sha256Hex content
    let fingerprint := generateFingerprint sha256Hex content
    let stats := { stats with Fingerprint := fingerprint }
    (Response.ok stats, fileStats.set fingerprint stats)

/-- One turn of the loop of `compareHandler` over `fileStats`. -/
def compareStep (fileID : GoString) (currentStats : AnalysisResult)
    (results : GoMap GoString ℚ) (e : GoString × AnalysisResult) : GoMap GoString ℚ :=
  if e.1 ≠ fileID then
    let similarity := compareStats currentStats e.2
    if similarity = 100 then results.set e.1 similarity else results
  else results

/-- The part of `compareHandler` that runs under `statsMutex.RLock()` (lines 107 to 128):
look the record up, then scan the index. -/
def findMatches (fileStats : Index) (fileID : GoString) : Response (GoMap GoString ℚ) :=
  match fileStats.get? fileID with
  | none => Response.error "File not found" StatusNotFound
  | some currentStats =>
    Response.ok (fileStats.entries.foldl (compareStep fileID currentStats) GoMap.empty)

/-- `compareHandler` on the request path `r.URL.Path`. -/
def compareHandler (fileStats : Index) (path : GoString) : Response (GoMap GoString ℚ) :=
  let fileID := TrimPrefix path (ascii "/compare/")
  if fileID = [] then Response.error "File ID required" StatusBadRequest
  else findMatches fileStats fileID

/-- The path of a compare request for `fileID`. -/
def comparePath (fileID : GoString) : GoString := ascii "/compare/" ++ fileID

/-! ## Record invariants -/

/-- The sum of the values of a map of counts. -/
def sumValues {κ : Type} (m : GoMap κ Int) : Int := (m.entries.map Prod.snd).sum

/-- The invariants of a record (spec, section 3): `WordCount` is the sum of the values of
`WordFrequency`, and every stored value is positive. -/
def RecordInv (r : AnalysisResult) : Prop :=
  r.WordCount = sumValues r.WordFrequency ∧ ∀ e ∈ r.WordFrequency.entries, 1 ≤ e.2

/-- What one pair of `a.WordFrequency` adds to `commonWords` against the pairs of
`b.WordFrequency`. -/
def commonTerm (b : List (List Rune × Int)) (e : List Rune × Int) : Int :=
  match lookupList b e.1 with
  | some countB => min e.2 countB
  | none => 0

/-- The common count of two records as a sum over the pairs of `a.WordFrequency`, without
wrapping. -/
def commonExact (a b : AnalysisResult) : Int :=
  (a.WordFrequency.entries.map (commonTerm b.WordFrequency.entries)).sum

/-! ## Tokenization as the specification words it -/

/-- The normalized tokens of a text in the words of the specification (section 4.2):
split the text on white space into candidates, strip from each candidate the leading and
trailing runes that are neither letters nor numbers, lower-case the remainder, and
discard what is empty. -/
def specTokens (U : UnicodeTables) (content : GoString) : List (List Rune) :=
  ((((decodeRunes content).map Prod.fst).splitOnP isSpace).map
    (fun candidate => stringsToLower U (TrimFunc candidate (notLetterOrNumber U)))).filter
    (fun token => token ≠ [])

/-- The word the loop of `analyzeText` makes of the token `text`: lower-cased, then
stripped. -/
def normalize (U : UnicodeTables) (text : List Rune) : List Rune :=
  TrimFunc (stringsToLower U text) (notLetterOrNumber U)

/-- A text with a first token of `MaxScanTokenSize` bytes: that many letters "a", a space
and the word "b". -/
def longTokenText : GoString := List.replicate MaxScanTokenSize 0x61 ++ ascii " b"

/-- Unicode tables cut down to ASCII: no letter, number or case mapping from `0x80` on. -/
def asciiTables : UnicodeTables :=
  { letter := fun _ => false, number := fun _ => false, lower := fun r => r }

/-! ## The scenario "the same bytes analyzed twice" -/

/-- The index after the body `content` is analyzed twice in two calls of
`analyzeHandler`, starting from `fileStats`. -/
def analyzedTwice (U : UnicodeTables) (sha256Hex : GoString → GoString) (fileStats : Index)
    (content : GoString) : Index :=
  (analyzeHandler U sha256Hex
    (analyzeHandler U sha256Hex fileStats (some content)).2 (some content)).2

/-- The second half of claim C7 as it is written: after `content` is analyzed twice,
`compareHandler` on the resulting fingerprint answers with a mapping that holds the
fingerprint of the other submission, which is the same fingerprint, with score 100. -/
def DuplicateReported (U : UnicodeTables) (sha256Hex : GoString → GoString) (fileStats : Index)
    (content : GoString) : Prop :=
  ∃ results,
    compareHandler (analyzedTwice U sha256Hex fileStats content)
        (comparePath (generateFingerprint sha256Hex content)) = Response.ok results
      ∧ results.get? (generateFingerprint sha256Hex content) = some 100

/-! ## Very long texts -/

/-- A text of `n + 1` words "x" with one space between them: `2 * n + 1` bytes. -/
def xWords : Nat → GoString
  | 0 => [0x78]
  | n + 1 => 0x78 :: 0x20 :: xWords n

/-- A text of `2^62` words "x": `2^63 - 1` bytes, the largest length of a Go byte slice. -/
def hugeTextA : GoString := xWords (2 ^ 62 - 1)

/-- The word "y" followed by `2^62 - 1` words "x": `2^63 - 1` bytes. -/
def hugeTextB : GoString := 0x79 :: 0x20 :: xWords (2 ^ 62 - 2)

/-- A text of `2^52 + 1` words "x". -/
def bigTextA : GoString := xWords (2 ^ 52)

/-- A text of `2^52` words "x". -/
def bigTextB : GoString := xWords (2 ^ 52 - 1)

/-! ## Sample records and indexes -/

/-- The record of a text with the words of "The quick fox". -/
def foxRecord : AnalysisResult :=
  { CharCount := 13, WordCount := 3, ParaCount := 1, UniqueWords := 3
    Fingerprint := ascii "f0"
    WordFrequency := ⟨[(ascii "the", 1), (ascii "quick", 1), (ascii "fox", 1)], by decide⟩ }

/-- The record of a text with the same words in another order, "fox, the quick". -/
def xofRecord : AnalysisResult :=
  { CharCount := 14, WordCount := 3, ParaCount := 1, UniqueWords := 3
    Fingerprint := ascii "f1"
    WordFrequency := ⟨[(ascii "fox", 1), (ascii "the", 1), (ascii "quick", 1)], by decide⟩ }

/-- The record of the text "the the dog". -/
def dogRecord : AnalysisResult :=
  { CharCount := 11, WordCount := 3, ParaCount := 1, UniqueWords := 2
    Fingerprint := ascii "d0"
    WordFrequency := ⟨[(ascii "the", 2), (ascii "dog", 1)], by decide⟩ }

/-- The word count and the table of the record of `hugeTextA`: `2^62` words "x". -/
def hugeA : AnalysisResult :=
  { CharCount := 2 ^ 63 - 1, WordCount := 2 ^ 62, ParaCount := 1, UniqueWords := 1
    Fingerprint := ascii "a0"
    WordFrequency := ⟨[(ascii "x", 2 ^ 62)], by decide⟩ }

/-- The word count and the table of the record of `hugeTextB`: one word "y" and `2^62 - 1`
words "x". -/
def hugeB : AnalysisResult :=
  { CharCount := 2 ^ 63 - 1, WordCount := 2 ^ 62, ParaCount := 1, UniqueWords := 2
    Fingerprint := ascii "b0"
    WordFrequency := ⟨[(ascii "y", 1), (ascii "x", 2 ^ 62 - 1)], by decide⟩ }

/-- The word count and the table of the record of `bigTextA`: `2^52 + 1` words "x". -/
def bigA : AnalysisResult :=
  { CharCount := 2 ^ 53 + 1, WordCount := 2 ^ 52 + 1, ParaCount := 1, UniqueWords := 1
    Fingerprint := ascii "a1"
    WordFrequency := ⟨[(ascii "x", 2 ^ 52 + 1)], by decide⟩ }

/-- The word count and the table of the record of `bigTextB`: `2^52` words "x". -/
def bigB : AnalysisResult :=
  { CharCount := 2 ^ 53 - 1, WordCount := 2 ^ 52, ParaCount := 1, UniqueWords := 1
    Fingerprint := ascii "b1"
    WordFrequency := ⟨[(ascii "x", 2 ^ 52)], by decide⟩ }

/-- An index that holds `foxRecord`, `xofRecord` and `dogRecord`. -/
def sampleIndex : Index :=
  ⟨[(ascii "f0", foxRecord), (ascii "f1", xofRecord), (ascii "d0", dogRecord)], by decide⟩

/-! ## Lemmas on maps -/

section MapLemmas

variable {κ ν : Type} [DecidableEq κ]

theorem lookupList_setList_self (l : List (κ × ν)) (k : κ) (v : ν) :
    lookupList (setList l k v) k = some v := by
  induction l with
  | nil => simp [setList, lookupList]
  | cons p l ih =>
    obtain ⟨k', v'⟩ := p
    by_cases h : k' = k
    · simp [setList, lookupList, h]
    · simp [setList, lookupList, h, ih]

theorem lookupList_setList_ne (l : List (κ × ν)) {k k' : κ} (v : ν) (h : k' ≠ k) :
    lookupList (setList l k v) k' = lookupList l k' := by
  induction l with
  | nil => simp [setList, lookupList, h.symm]
  | cons p l ih =>
    obtain ⟨k'', v''⟩ := p
    by_cases h1 : k'' = k
    · subst h1; simp [setList, lookupList, h.symm]
    · by_cases h2 : k'' = k'
      · subst h2; simp [setList, lookupList, h1]
      · simp [setList, lookupList, h1, h2, ih]

theorem lookupList_mem {l : List (κ × ν)} {k : κ} {v : ν} (h : lookupList l k = some v) :
    (k, v) ∈ l := by
  induction l with
  | nil => simp [lookupList] at h
  | cons p l ih =>
    obtain ⟨k', v'⟩ := p
    by_cases h1 : k' = k
    · subst h1
      simp only [lookupList, if_true, Option.some.injEq] at h
      subst h
      exact List.mem_cons_self _ _
    · simp only [lookupList, h1, if_false] at h
      exact List.mem_cons_of_mem _ (ih h)

theorem lookupList_eq_none_iff (l : List (κ × ν)) (k : κ) :
    lookupList l k = none ↔ k ∉ l.map Prod.fst := by
  induction l with
  | nil => simp [lookupList]
  | cons p l ih =>
    obtain ⟨k', v'⟩ := p
    by_cases h1 : k' = k
    · simp [lookupList, h1]
    · have h2 : ¬ k = k' := fun e => h1 e.symm
      simp only [lookupList, h1, if_false, ih, List.map_cons, List.mem_cons, h2, false_or]

theorem lookupList_of_mem {l : List (κ × ν)} (hl : (l.map Prod.fst).Nodup) {k : κ} {v : ν}
    (h : (k, v) ∈ l) : lookupList l k = some v := by
  induction l with
  | nil => simp at h
  | cons p l ih =>
    obtain ⟨k', v'⟩ := p
    rw [List.map_cons, List.nodup_cons] at hl
    rcases List.mem_cons.mp h with h1 | h1
    · cases h1; simp [lookupList]
    · have hk : k ∈ l.map Prod.fst := List.mem_map.mpr ⟨(k, v), h1, rfl⟩
      have h2 : ¬ k' = k := fun e => hl.1 (e ▸ hk)
      simp only [lookupList, h2, if_false]
      exact ih hl.2 h1

theorem mem_setList {l : List (κ × ν)} {k : κ} {v : ν} {e : κ × ν} (h : e ∈ setList l k v) :
    e ∈ l ∨ e = (k, v) := by
  induction l with
  | nil => simpa [setList] using h
  | cons p l ih =>
    obtain ⟨k', v'⟩ := p
    by_cases h1 : k' = k
    · simp only [setList, h1, if_true, List.mem_cons] at h
      rcases h with h | h
      · exact Or.inr h
      · exact Or.inl (List.mem_cons_of_mem _ h)
    · simp only [setList, h1, if_false, List.mem_cons] at h
      rcases h with h | h
      · exact Or.inl (h ▸ List.mem_cons_self _ _)
      · rcases ih h with h | h
        · exact Or.inl (List.mem_cons_of_mem _ h)
        · exact Or.inr h

theorem setList_setList (l : List (κ × ν)) (k : κ) (v v' : ν) :
    setList (setList l k v) k v' = setList l k v' := by
  induction l with
  | nil => simp [setList]
  | cons p l ih =>
    obtain ⟨k', w⟩ := p
    by_cases h1 : k' = k
    · simp [setList, h1]
    · simp [setList, h1, ih]

theorem sum_setList (l : List (κ × Int)) (k : κ) (v : Int) :
    ((setList l k v).map Prod.snd).sum
      = (l.map Prod.snd).sum - (lookupList l k).getD 0 + v := by
  induction l with
  | nil => simp [setList, lookupList]
  | cons p l ih =>
    obtain ⟨k', w⟩ := p
    by_cases h1 : k' = k
    · simp only [setList, lookupList, h1, if_true, List.map_cons, List.sum_cons,
        Option.getD_some]
      ring
    · simp only [setList, lookupList, h1, if_false, List.map_cons, List.sum_cons, ih]
      ring

omit [DecidableEq κ] in
theorem GoMap.ext_entries {m m' : GoMap κ ν} (h : m.entries = m'.entries) : m = m' := by
  cases m; cases m'; cases h; rfl

theorem GoMap.get?_set_self (m : GoMap κ ν) (k : κ) (v : ν) : (m.set k v).get? k = some v :=
  lookupList_setList_self m.entries k v

theorem GoMap.get?_set_ne (m : GoMap κ ν) {k k' : κ} (v : ν) (h : k' ≠ k) :
    (m.set k v).get? k' = m.get? k' :=
  lookupList_setList_ne m.entries v h

theorem GoMap.set_set (m : GoMap κ ν) (k : κ) (v v' : ν) : (m.set k v).set k v' = m.set k v' :=
  GoMap.ext_entries (setList_setList m.entries k v v')

theorem GoMap.get?_eq_none_iff (m : GoMap κ ν) (k : κ) : m.get? k = none ↔ k ∉ m.keys :=
  lookupList_eq_none_iff m.entries k

theorem GoMap.get?_eq_some_iff (m : GoMap κ ν) (k : κ) (v : ν) :
    m.get? k = some v ↔ (k, v) ∈ m.entries :=
  ⟨lookupList_mem, lookupList_of_mem m.nodupKeys⟩

end MapLemmas

/-! ## The loop of `analyzeText` keeps the record invariants -/

theorem countWord_inv (U : UnicodeTables) (st : Int × GoMap (List Rune) Int) (text : List Rune)
    (h : st.1 = sumValues st.2 ∧ ∀ e ∈ st.2.entries, 1 ≤ e.2) :
    (countWord U st text).1 = sumValues (countWord U st text).2
      ∧ ∀ e ∈ (countWord U st text).2.entries, 1 ≤ e.2 := by
  unfold countWord
  simp only
  split
  · have hget : 0 ≤ st.2.getD (TrimFunc (stringsToLower U text) (notLetterOrNumber U)) 0 := by
      unfold GoMap.getD GoMap.get?
      cases hl : lookupList st.2.entries
          (TrimFunc (stringsToLower U text) (notLetterOrNumber U)) with
      | none => simp
      | some c =>
        have := h.2 _ (lookupList_mem hl)
        simp only [Option.getD_some]
        omega
    refine ⟨?_, ?_⟩
    · simp only [sumValues, GoMap.set, sum_setList, GoMap.getD, GoMap.get?]
      have := h.1
      simp only [sumValues] at this
      omega
    · intro e he
      rcases mem_setList he with he | he
      · exact h.2 e he
      · subst he
        simp only
        omega
  · exact h

theorem foldl_countWord_inv (U : UnicodeTables) (toks : List (List Rune))
    (st : Int × GoMap (List Rune) Int)
    (h : st.1 = sumValues st.2 ∧ ∀ e ∈ st.2.entries, 1 ≤ e.2) :
    (toks.foldl (countWord U) st).1 = sumValues (toks.foldl (countWord U) st).2
      ∧ ∀ e ∈ (toks.foldl (countWord U) st).2.entries, 1 ≤ e.2 := by
  induction toks generalizing st with
  | nil => exact h
  | cons t toks ih => exact ih _ (countWord_inv U st t h)

theorem analyzeText_recordInv (U : UnicodeTables) (sha256Hex : GoString → GoString)
    (content : GoString) : RecordInv (analyzeText U sha256Hex content) :=
  foldl_countWord_inv U (scanWords content) (0, GoMap.empty)
    ⟨by simp [sumValues, GoMap.empty], by simp [GoMap.empty]⟩

/-- C3. For every input text the record returned by `analyzeText` has `UniqueWords` equal
to the number of (distinct) keys of `WordFrequency`, `WordCount` equal to the sum of all
values of `WordFrequency`, and every stored value at least 1. -/
theorem analyzeText_invariants (U : UnicodeTables) (sha256Hex : GoString → GoString)
    (content : GoString) :
    (analyzeText U sha256Hex content).UniqueWords
        = ((analyzeText U sha256Hex content).WordFrequency.keys.toFinset.card : Int)
      ∧ (analyzeText U sha256Hex content).UniqueWords
        = ((analyzeText U sha256Hex content).WordFrequency.keys.length : Int)
      ∧ (analyzeText U sha256Hex content).WordCount
        = sumValues (analyzeText U sha256Hex content).WordFrequency
      ∧ ∀ w c, (analyzeText U sha256Hex content).WordFrequency.get? w = some c → 1 ≤ c := by
  have hinv := analyzeText_recordInv U sha256Hex content
  refine ⟨?_, ?_, hinv.1, ?_⟩
  · unfold GoMap.keys
    rw [List.toFinset_card_of_nodup (analyzeText U sha256Hex content).WordFrequency.nodupKeys]
    simp [analyzeText, GoMap.len]
  · simp [analyzeText, GoMap.len, GoMap.keys]
  · intro w c h
    exact hinv.2 (w, c) (lookupList_mem h)

/-! ## `compareStats`: the common count -/

theorem min_le_left (a b : Int) : min a b ≤ a := by
  unfold min; split <;> omega

theorem min_le_right (a b : Int) : min a b ≤ b := by
  unfold min; split <;> omega

theorem min_comm (a b : Int) : min a b = min b a := by
  unfold min; split <;> split <;> omega

theorem min_self (a : Int) : min a a = a := by
  unfold min; split <;> rfl

theorem min_eq_left_iff (a b : Int) : min a b = a ↔ a ≤ b := by
  unfold min; split <;> omega

theorem sum_single_absent (l : List (List Rune × Int)) (k : List Rune) (v : Int)
    (h : k ∉ l.map Prod.fst) :
    (l.map (fun e => if k = e.1 then min e.2 v else 0)).sum = 0 := by
  induction l with
  | nil => simp
  | cons p l ih =>
    rw [List.map_cons, List.mem_cons, not_or] at h
    rw [List.map_cons, List.sum_cons, ih h.2, if_neg h.1]
    rfl

theorem sum_single (l : List (List Rune × Int)) (hl : (l.map Prod.fst).Nodup)
    (k : List Rune) (v : Int) :
    (l.map (fun e => if k = e.1 then min e.2 v else 0)).sum = commonTerm l (k, v) := by
  induction l with
  | nil => simp [commonTerm, lookupList]
  | cons p l ih =>
    obtain ⟨k', u⟩ := p
    rw [List.map_cons, List.nodup_cons] at hl
    rw [List.map_cons, List.sum_cons]
    by_cases h1 : k' = k
    · subst h1
      rw [sum_single_absent l k' v hl.1]
      simp [commonTerm, lookupList, min_comm u v]
    · have h2 : ¬ k = k' := fun e => h1 e.symm
      rw [ih hl.2]
      simp [commonTerm, lookupList, h1, h2]

theorem commonTerm_cons (k : List Rune) (v : Int) (l : List (List Rune × Int))
    (hk : k ∉ l.map Prod.fst) (e : List Rune × Int) :
    commonTerm ((k, v) :: l) e = (if k = e.1 then min e.2 v else 0) + commonTerm l e := by
  unfold commonTerm
  by_cases h : k = e.1
  · have hn : lookupList l e.1 = none := (lookupList_eq_none_iff l e.1).mpr (h ▸ hk)
    simp [lookupList, h, hn]
  · simp [lookupList, h]

theorem sum_commonTerm_symm (la lb : List (List Rune × Int)) (ha : (la.map Prod.fst).Nodup)
    (hb : (lb.map Prod.fst).Nodup) :
    (la.map (commonTerm lb)).sum = (lb.map (commonTerm la)).sum := by
  induction la with
  | nil =>
    have : commonTerm [] = fun _ => (0 : Int) :=
      funext fun e => by simp [commonTerm, lookupList]
    simp [this]
  | cons p la ih =>
    obtain ⟨k, v⟩ := p
    rw [List.map_cons, List.nodup_cons] at ha
    have hfun : commonTerm ((k, v) :: la)
        = fun e => (if k = e.1 then min e.2 v else 0) + commonTerm la e :=
      funext (commonTerm_cons k v la ha.1)
    rw [List.map_cons, List.sum_cons, ih ha.2, hfun, List.sum_map_add, sum_single lb hb k v]

theorem commonExact_symm (a b : AnalysisResult) : commonExact a b = commonExact b a :=
  sum_commonTerm_symm _ _ a.WordFrequency.nodupKeys b.WordFrequency.nodupKeys

theorem wrapInt_of_range {x : Int} (h1 : -(2 ^ 63) ≤ x) (h2 : x < 2 ^ 63) : wrapInt x = x := by
  unfold wrapInt
  omega

theorem wrapInt_add_left (x y : Int) : wrapInt (wrapInt x + y) = wrapInt (x + y) := by
  unfold wrapInt
  omega

theorem wrapInt_wrapInt (x : Int) : wrapInt (wrapInt x) = wrapInt x := by
  unfold wrapInt
  omega

theorem foldl_common_wrap (b : List (List Rune × Int)) (l : List (List Rune × Int))
    (init : Int) :
    wrapInt (l.foldl
        (fun common e =>
          match lookupList b e.1 with
          | some countB => wrapInt (common + min e.2 countB)
          | none => common)
        init)
      = wrapInt (init + (l.map (commonTerm b)).sum) := by
  induction l generalizing init with
  | nil => simp
  | cons e l ih =>
    rw [List.foldl_cons, ih, List.map_cons, List.sum_cons]
    unfold commonTerm
    cases lookupList b e.1 with
    | none => simp
    | some c =>
      simp only
      rw [wrapInt_add_left, add_assoc]

theorem foldl_common_wrapped (b : List (List Rune × Int)) (l : List (List Rune × Int))
    (init : Int) (h : wrapInt init = init) :
    wrapInt (l.foldl
        (fun common e =>
          match lookupList b e.1 with
          | some countB => wrapInt (common + min e.2 countB)
          | none => common)
        init)
      = l.foldl
        (fun common e =>
          match lookupList b e.1 with
          | some countB => wrapInt (common + min e.2 countB)
          | none => common)
        init := by
  induction l generalizing init with
  | nil => exact h
  | cons e l ih =>
    rw [List.foldl_cons]
    apply ih
    cases lookupList b e.1 with
    | none => exact h
    | some c => exact wrapInt_wrapInt _

/-- The loop of `compareStats` leaves the common count, wrapped to 64 bits once. -/
theorem commonWords_eq (a b : AnalysisResult) :
    commonWords a b = wrapInt (commonExact a b) := by
  unfold commonWords commonExact GoMap.get?
  rw [← foldl_common_wrapped _ _ 0 (by unfold wrapInt; omega), foldl_common_wrap, zero_add]

theorem commonWords_symm (a b : AnalysisResult) : commonWords a b = commonWords b a := by
  rw [commonWords_eq, commonWords_eq, commonExact_symm]

/-- C2. The similarity score is symmetric: `compareStats a b = compareStats b a` for all
pairs of records. -/
theorem compareStats_symm (a b : AnalysisResult) : compareStats a b = compareStats b a := by
  unfold compareStats
  rw [commonWords_symm a b, add_comm a.WordCount b.WordCount]

/-! ## `compareStats` does not depend on the order in which a map is iterated -/

theorem entries_perm_of_get? {κ ν : Type} [DecidableEq κ] (m m' : GoMap κ ν)
    (h : ∀ k, m.get? k = m'.get? k) : m.entries.Perm m'.entries := by
  rw [List.perm_ext_iff_of_nodup (List.Nodup.of_map Prod.fst m.nodupKeys)
    (List.Nodup.of_map Prod.fst m'.nodupKeys)]
  intro e
  obtain ⟨k, v⟩ := e
  rw [← GoMap.get?_eq_some_iff, ← GoMap.get?_eq_some_iff, h k]

/-- Two pairs of records with the same word counts and the same tables, whatever the order
in which the tables hold their pairs, have the same score. -/
theorem compareStats_ext (a a' b b' : AnalysisResult)
    (hac : a.WordCount = a'.WordCount) (hbc : b.WordCount = b'.WordCount)
    (ha : ∀ w, a.WordFrequency.get? w = a'.WordFrequency.get? w)
    (hb : ∀ w, b.WordFrequency.get? w = b'.WordFrequency.get? w) :
    compareStats a b = compareStats a' b' := by
  have hterm : commonTerm b.WordFrequency.entries = commonTerm b'.WordFrequency.entries := by
    funext e
    unfold commonTerm
    have := hb e.1
    unfold GoMap.get? at this
    rw [this]
  have hexact : commonExact a b = commonExact a' b' := by
    unfold commonExact
    rw [hterm]
    exact ((entries_perm_of_get? _ _ ha).map _).sum_eq
  unfold compareStats
  rw [commonWords_eq, commonWords_eq, hexact, hac, hbc]

/-- The order-independence of the score at `foxRecord` and `xofRecord`, which hold the same
table in two different orders. -/
theorem compareStats_ext_witness :
    foxRecord.WordCount = xofRecord.WordCount
      ∧ (∀ w, foxRecord.WordFrequency.get? w = xofRecord.WordFrequency.get? w)
      ∧ compareStats foxRecord dogRecord = compareStats xofRecord dogRecord :=
  have h : ∀ w, foxRecord.WordFrequency.get? w = xofRecord.WordFrequency.get? w := by
    intro w
    unfold GoMap.get? foxRecord xofRecord
    simp only [lookupList]
    split_ifs <;> simp_all
  ⟨rfl, h, compareStats_ext foxRecord xofRecord dogRecord dogRecord rfl rfl h (fun _ => rfl)⟩

/-! ## Rounding to `float64` -/

theorem roundEven_intCast (n : Int) : roundEven (n : ℚ) = n := by
  unfold roundEven
  simp

theorem floor_le_roundEven (x : ℚ) : ⌊x⌋ ≤ roundEven x := by
  unfold roundEven
  split_ifs <;> omega

theorem roundEven_le_floor_add_one (x : ℚ) : roundEven x ≤ ⌊x⌋ + 1 := by
  unfold roundEven
  split_ifs <;> omega

theorem roundEven_mono {x y : ℚ} (h : x ≤ y) : roundEven x ≤ roundEven y := by
  have hf : ⌊x⌋ ≤ ⌊y⌋ := Int.floor_mono h
  rcases hf.lt_or_eq with hlt | heq
  · calc roundEven x ≤ ⌊x⌋ + 1 := roundEven_le_floor_add_one x
      _ ≤ ⌊y⌋ := hlt
      _ ≤ roundEven y := floor_le_roundEven y
  · unfold roundEven
    rw [heq]
    rw [heq] at *
    have hxy : x - ⌊y⌋ ≤ y - ⌊y⌋ := by linarith
    split_ifs <;> first | omega | linarith

theorem roundEven_le_of_le {x : ℚ} {n : Int} (h : x ≤ n) : roundEven x ≤ n := by
  have := roundEven_mono h
  rwa [roundEven_intCast] at this

theorem le_roundEven_of_le {x : ℚ} {n : Int} (h : (n : ℚ) ≤ x) : n ≤ roundEven x := by
  have := roundEven_mono h
  rwa [roundEven_intCast] at this

theorem log_eq_of_bounds {x : ℚ} {e : Int} (h1 : (2 : ℚ) ^ e ≤ x) (h2 : x < (2 : ℚ) ^ (e + 1)) :
    Int.log 2 x = e := by
  have hx : 0 < x := lt_of_lt_of_le (by positivity) h1
  have hb : 1 < 2 := by norm_num
  apply le_antisymm
  · have := (Int.lt_zpow_iff_log_lt hb hx).mp (by exact_mod_cast h2)
    omega
  · exact (Int.zpow_le_iff_le_log hb hx).mp (by exact_mod_cast h1)

theorem toFloat64_of_pos {x : ℚ} (hx : 0 < x) :
    toFloat64 x = roundEven (x / 2 ^ (Int.log 2 x - 52)) * 2 ^ (Int.log 2 x - 52) := by
  unfold toFloat64
  rw [if_neg hx.ne', abs_of_pos hx]

theorem ulp_pos (e : Int) : (0 : ℚ) < 2 ^ (e - 52) := by positivity

theorem two_zpow_split (e : Int) (k : Int) : (2 : ℚ) ^ (e + k) = 2 ^ k * 2 ^ e := by
  rw [zpow_add₀ (by norm_num : (2 : ℚ) ≠ 0), mul_comm]

theorem toFloat64_fixed {x : ℚ} (hx : 0 < x) (m : Int)
    (h : x / 2 ^ (Int.log 2 x - 52) = m) : toFloat64 x = x := by
  rw [toFloat64_of_pos hx, h, roundEven_intCast, ← h]
  exact div_mul_cancel₀ x (ulp_pos _).ne'

theorem toFloat64_nonneg {x : ℚ} (hx : 0 ≤ x) : 0 ≤ toFloat64 x := by
  rcases hx.lt_or_eq with hpos | h0
  · rw [toFloat64_of_pos hpos]
    have h1 : (0 : Int) ≤ roundEven (x / 2 ^ (Int.log 2 x - 52)) :=
      le_roundEven_of_le (by
        have := ulp_pos (Int.log 2 x)
        simpa using div_nonneg hx this.le)
    have h2 : (0 : ℚ) ≤ (roundEven (x / 2 ^ (Int.log 2 x - 52)) : ℚ) := by exact_mod_cast h1
    exact mul_nonneg h2 (ulp_pos _).le
  · rw [← h0]
    simp [toFloat64]

/-- Rounding stays inside the binade of the argument. -/
theorem toFloat64_binade {x : ℚ} (hx : 0 < x) :
    (2 : ℚ) ^ Int.log 2 x ≤ toFloat64 x ∧ toFloat64 x ≤ 2 ^ (Int.log 2 x + 1) := by
  have hu := ulp_pos (Int.log 2 x)
  have hlo : (2 : ℚ) ^ Int.log 2 x ≤ x := by
    have := Int.zpow_log_le_self (R := ℚ) (b := 2) (by norm_num) hx
    exact_mod_cast this
  have hhi : x < (2 : ℚ) ^ (Int.log 2 x + 1) := by
    have := Int.lt_zpow_succ_log_self (R := ℚ) (b := 2) (by norm_num) x
    exact_mod_cast this
  have e1 : (2 : ℚ) ^ Int.log 2 x = ((2 ^ 52 : Int) : ℚ) * 2 ^ (Int.log 2 x - 52) := by
    have := two_zpow_split (Int.log 2 x - 52) 52
    rw [sub_add_cancel] at this
    rw [this]
    norm_num
  have e2 : (2 : ℚ) ^ (Int.log 2 x + 1) = ((2 ^ 53 : Int) : ℚ) * 2 ^ (Int.log 2 x - 52) := by
    have := two_zpow_split (Int.log 2 x - 52) 53
    rw [show Int.log 2 x - 52 + 53 = Int.log 2 x + 1 by ring] at this
    rw [this]
    norm_num
  rw [toFloat64_of_pos hx]
  constructor
  · rw [e1]
    apply mul_le_mul_of_nonneg_right _ hu.le
    have : ((2 ^ 52 : Int) : ℚ) ≤ x / 2 ^ (Int.log 2 x - 52) := by
      rw [le_div_iff₀ hu, ← e1]
      exact hlo
    exact_mod_cast le_roundEven_of_le this
  · rw [e2]
    apply mul_le_mul_of_nonneg_right _ hu.le
    have : x / 2 ^ (Int.log 2 x - 52) ≤ ((2 ^ 53 : Int) : ℚ) := by
      rw [div_le_iff₀ hu, ← e2]
      exact hhi.le
    exact_mod_cast roundEven_le_of_le this

/-- Rounding to `float64` is monotone. -/
theorem toFloat64_mono {x y : ℚ} (hx : 0 ≤ x) (h : x ≤ y) : toFloat64 x ≤ toFloat64 y := by
  rcases hx.lt_or_eq with hpos | h0
  · have hy : 0 < y := lt_of_lt_of_le hpos h
    have hlog : Int.log 2 x ≤ Int.log 2 y := Int.log_mono_right hpos h
    rcases hlog.lt_or_eq with hlt | heq
    · calc toFloat64 x ≤ 2 ^ (Int.log 2 x + 1) := (toFloat64_binade hpos).2
        _ ≤ 2 ^ Int.log 2 y := zpow_le_zpow_right₀ (by norm_num) hlt
        _ ≤ toFloat64 y := (toFloat64_binade hy).1
    · rw [toFloat64_of_pos hpos, toFloat64_of_pos hy, heq]
      apply mul_le_mul_of_nonneg_right _ (ulp_pos _).le
      have : x / 2 ^ (Int.log 2 y - 52) ≤ y / 2 ^ (Int.log 2 y - 52) :=
        div_le_div_of_nonneg_right h (ulp_pos _).le
      exact_mod_cast roundEven_mono this
  · rw [← h0]
    have : toFloat64 0 = 0 := by simp [toFloat64]
    rw [this]
    exact toFloat64_nonneg (h0 ▸ h)

/-- An integer of less than 54 bits is a `float64`. -/
theorem toFloat64_of_ne {x : ℚ} (hx : x ≠ 0) :
    toFloat64 x = roundEven (x / 2 ^ (Int.log 2 |x| - 52)) * 2 ^ (Int.log 2 |x| - 52) := by
  unfold toFloat64
  rw [if_neg hx]

/-- The rounding of a value whose binade is known. -/
theorem toFloat64_at {x : ℚ} (e : Int) (h1 : (2 : ℚ) ^ e ≤ |x|) (h2 : |x| < (2 : ℚ) ^ (e + 1)) :
    toFloat64 x = roundEven (x / 2 ^ (e - 52)) * 2 ^ (e - 52) := by
  have hx : x ≠ 0 := by
    intro h
    rw [h, abs_zero] at h1
    exact absurd h1 (not_le.mpr (by positivity))
  rw [toFloat64_of_ne hx, log_eq_of_bounds h1 h2]

/-- A value with a significand of at most 53 bits is a `float64`. -/
theorem toFloat64_exact {x : ℚ} (e : Int) (m : Int) (h1 : (2 : ℚ) ^ e ≤ |x|)
    (h2 : |x| < (2 : ℚ) ^ (e + 1)) (hm : x / 2 ^ (e - 52) = m) : toFloat64 x = x := by
  rw [toFloat64_at e h1 h2, hm, roundEven_intCast, ← hm]
  exact div_mul_cancel₀ x (ulp_pos _).ne'

theorem toFloat64_ne_zero {x : ℚ} (hx : x ≠ 0) : toFloat64 x ≠ 0 := by
  have habs : 0 < |x| := abs_pos.mpr hx
  have hu := ulp_pos (Int.log 2 |x|)
  have hlo : (2 : ℚ) ^ Int.log 2 |x| ≤ |x| := by
    have := Int.zpow_log_le_self (R := ℚ) (b := 2) (by norm_num) habs
    exact_mod_cast this
  have e1 : (2 : ℚ) ^ Int.log 2 |x| = ((2 ^ 52 : Int) : ℚ) * 2 ^ (Int.log 2 |x| - 52) := by
    have := two_zpow_split (Int.log 2 |x| - 52) 52
    rw [sub_add_cancel] at this
    rw [this]
    norm_num
  have hbig : ((2 ^ 52 : Int) : ℚ) ≤ |x| / 2 ^ (Int.log 2 |x| - 52) := by
    rw [le_div_iff₀ hu, ← e1]
    exact hlo
  have key : ∀ u : ℚ, ((2 ^ 52 : Int) : ℚ) ≤ |x| / u → roundEven (x / u) ≠ 0 := by
    intro u hb
    rcases lt_or_gt_of_ne hx with hneg | hpos
    · rw [abs_of_neg hneg, neg_div] at hb
      have hle : x / u ≤ ((-(2 ^ 52) : Int) : ℚ) := by
        push_cast at hb ⊢
        linarith
      have := roundEven_le_of_le hle
      omega
    · rw [abs_of_pos hpos] at hb
      have := le_roundEven_of_le hb
      omega
  rw [toFloat64_of_ne hx]
  apply mul_ne_zero _ hu.ne'
  exact_mod_cast key _ hbig

/-- An integer from 0 to `2^53` is a `float64`. -/
theorem toFloat64_intCast {n : Int} (h0 : 0 ≤ n) (h53 : n ≤ 2 ^ 53) : toFloat64 (n : ℚ) = n := by
  rcases h53.lt_or_eq with h | htop
  swap
  · rw [htop]
    exact toFloat64_exact 53 (2 ^ 52) (by norm_num) (by norm_num) (by norm_num)
  rcases h0.lt_or_eq with hpos | hz
  · have hx : (0 : ℚ) < (n : ℚ) := by exact_mod_cast hpos
    have hlt : (n : ℚ) < (2 : ℚ) ^ (53 : Int) := by
      have h' : (n : ℚ) < ((2 ^ 53 : Int) : ℚ) := by exact_mod_cast h
      norm_num at h' ⊢
      exact h'
    have he : Int.log 2 (n : ℚ) < 53 :=
      (Int.lt_zpow_iff_log_lt (R := ℚ) (b := 2) (by norm_num) hx).mp (by exact_mod_cast hlt)
    obtain ⟨k, hk⟩ : ∃ k : Nat, (k : Int) = 52 - Int.log 2 (n : ℚ) :=
      ⟨(52 - Int.log 2 (n : ℚ)).toNat, Int.toNat_of_nonneg (by omega)⟩
    apply toFloat64_fixed hx (n * 2 ^ k)
    have hu : (2 : ℚ) ^ (Int.log 2 (n : ℚ) - 52) = ((2 : ℚ) ^ k)⁻¹ := by
      rw [show Int.log 2 (n : ℚ) - 52 = -(k : Int) by omega, zpow_neg, zpow_natCast]
    rw [hu, div_inv_eq_mul]
    push_cast
    ring
  · rw [← hz]
    simp [toFloat64]

theorem toFloat64_predOne : toFloat64 predOne = predOne := by
  have hlog : Int.log 2 predOne = -1 :=
    log_eq_of_bounds (by norm_num [predOne]) (by norm_num [predOne])
  apply toFloat64_fixed (by norm_num [predOne]) (2 ^ 53 - 1)
  rw [hlog]
  norm_num [predOne]

theorem roundEven_of_floor {x : ℚ} {n : Int} (h1 : (n : ℚ) ≤ x) (h2 : x - n < 1 / 2) :
    roundEven x = n := by
  have hf : ⌊x⌋ = n := by
    rw [Int.floor_eq_iff]
    constructor
    · exact h1
    · linarith
  unfold roundEven
  rw [hf, if_pos h2]

theorem toFloat64_predOne_mul : toFloat64 (predOne * 100) < 100 := by
  have hlog : Int.log 2 (predOne * 100) = 6 :=
    log_eq_of_bounds (by norm_num [predOne]) (by norm_num [predOne])
  have hr : roundEven (predOne * 100 / 2 ^ ((6 : Int) - 52)) = 25 * 2 ^ 48 - 1 :=
    roundEven_of_floor (by norm_num [predOne]) (by norm_num [predOne])
  rw [toFloat64_of_pos (by norm_num [predOne]), hlog, hr]
  norm_num

theorem toFloat64_one : toFloat64 1 = 1 := by
  have := toFloat64_intCast (n := 1) (by norm_num) (by norm_num)
  simpa using this

theorem toFloat64_hundred : toFloat64 100 = 100 := by
  have := toFloat64_intCast (n := 100) (by norm_num) (by norm_num)
  simpa using this

/-- The score as the machine computes it from the two counts, when they are at most `2^53`:
it lies between 0 and 100, and it is 100 exactly when `2 * c = t`. -/
theorem score_float64 (c t : Int) (hc : 0 ≤ c) (hct : 2 * c ≤ t) (ht0 : 0 < t)
    (ht : t ≤ 2 ^ 53) :
    0 ≤ toFloat64 (toFloat64 (toFloat64 ((2 * c : Int) : ℚ) / toFloat64 ((t : Int) : ℚ)) * 100)
      ∧ toFloat64 (toFloat64 (toFloat64 ((2 * c : Int) : ℚ) / toFloat64 ((t : Int) : ℚ)) * 100)
        ≤ 100
      ∧ (toFloat64 (toFloat64 (toFloat64 ((2 * c : Int) : ℚ) / toFloat64 ((t : Int) : ℚ)) * 100)
          = 100 ↔ 2 * c = t) := by
  rw [toFloat64_intCast (by omega : 0 ≤ 2 * c) (by omega), toFloat64_intCast ht0.le ht]
  have htq : (0 : ℚ) < (t : ℚ) := by exact_mod_cast ht0
  have hcq : (0 : ℚ) ≤ ((2 * c : Int) : ℚ) := by exact_mod_cast (by omega : 0 ≤ 2 * c)
  have hq0 : (0 : ℚ) ≤ ((2 * c : Int) : ℚ) / (t : ℚ) := div_nonneg hcq htq.le
  have hs0 : 0 ≤ toFloat64 (toFloat64 (((2 * c : Int) : ℚ) / (t : ℚ)) * 100) :=
    toFloat64_nonneg (mul_nonneg (toFloat64_nonneg hq0) (by norm_num))
  rcases hct.lt_or_eq with hlt | heq
  · have hq : ((2 * c : Int) : ℚ) / (t : ℚ) ≤ predOne := by
      rw [div_le_iff₀ htq]
      have h1 : ((2 * c : Int) : ℚ) ≤ (t : ℚ) - 1 := by
        have : 2 * c ≤ t - 1 := by omega
        exact_mod_cast this
      have h2 : (t : ℚ) ≤ 2 ^ 53 := by exact_mod_cast ht
      have h3 : (t : ℚ) - 1 ≤ predOne * t := by
        unfold predOne
        have : (1 : ℚ) / 2 ^ 53 * t ≤ 1 := by
          rw [div_mul_eq_mul_div, one_mul, div_le_one (by positivity)]
          linarith
        linarith
      linarith
    have h1 : toFloat64 (((2 * c : Int) : ℚ) / (t : ℚ)) ≤ predOne := by
      have := toFloat64_mono hq0 hq
      rwa [toFloat64_predOne] at this
    have h2 : toFloat64 (toFloat64 (((2 * c : Int) : ℚ) / (t : ℚ)) * 100)
        ≤ toFloat64 (predOne * 100) :=
      toFloat64_mono (mul_nonneg (toFloat64_nonneg hq0) (by norm_num)) (by linarith)
    have h3 := toFloat64_predOne_mul
    refine ⟨hs0, by linarith, ?_⟩
    constructor
    · intro h
      linarith
    · intro h
      omega
  · have hq : ((2 * c : Int) : ℚ) / (t : ℚ) = 1 := by
      rw [heq]
      exact div_self htq.ne'
    rw [hq, toFloat64_one, one_mul, toFloat64_hundred]
    exact ⟨by norm_num, le_refl _, fun _ => heq, fun _ => rfl⟩

/-- Whatever the size of the counts, the score the machine computes from `0 ≤ c2 ≤ t` with
`0 < t` lies between 0 and 100. -/
theorem score_bounds (c2 t : Int) (hc : 0 ≤ c2) (hct : c2 ≤ t) (ht0 : 0 < t) :
    0 ≤ toFloat64 (toFloat64 (toFloat64 ((c2 : Int) : ℚ) / toFloat64 ((t : Int) : ℚ)) * 100)
      ∧ toFloat64 (toFloat64 (toFloat64 ((c2 : Int) : ℚ) / toFloat64 ((t : Int) : ℚ)) * 100)
        ≤ 100 := by
  have hcq : (0 : ℚ) ≤ (c2 : ℚ) := by exact_mod_cast hc
  have hctq : (c2 : ℚ) ≤ (t : ℚ) := by exact_mod_cast hct
  have h1t : (1 : ℚ) ≤ (t : ℚ) := by exact_mod_cast (by omega : 1 ≤ t)
  have hFc : 0 ≤ toFloat64 (c2 : ℚ) := toFloat64_nonneg hcq
  have hFct : toFloat64 (c2 : ℚ) ≤ toFloat64 (t : ℚ) := toFloat64_mono hcq hctq
  have hFt : 1 ≤ toFloat64 (t : ℚ) := by
    have := toFloat64_mono (by norm_num : (0 : ℚ) ≤ 1) h1t
    rwa [toFloat64_one] at this
  have hFtpos : 0 < toFloat64 (t : ℚ) := by linarith
  have hq0 : 0 ≤ toFloat64 (c2 : ℚ) / toFloat64 (t : ℚ) := div_nonneg hFc hFtpos.le
  have hq1 : toFloat64 (c2 : ℚ) / toFloat64 (t : ℚ) ≤ 1 := (div_le_one hFtpos).mpr hFct
  have hr0 : 0 ≤ toFloat64 (toFloat64 (c2 : ℚ) / toFloat64 (t : ℚ)) := toFloat64_nonneg hq0
  have hr1 : toFloat64 (toFloat64 (c2 : ℚ) / toFloat64 (t : ℚ)) ≤ 1 := by
    have := toFloat64_mono hq0 hq1
    rwa [toFloat64_one] at this
  constructor
  · exact toFloat64_nonneg (mul_nonneg hr0 (by norm_num))
  · have := toFloat64_mono (mul_nonneg hr0 (by norm_num))
      (by linarith : toFloat64 (toFloat64 (c2 : ℚ) / toFloat64 (t : ℚ)) * 100 ≤ 100)
    rwa [toFloat64_hundred] at this

theorem roundEven_tie_even {x : ℚ} {n : Int} (hx : x = n + 1 / 2) (hn : n % 2 = 0) :
    roundEven x = n := by
  have hf : ⌊x⌋ = n := by
    rw [Int.floor_eq_iff, hx]
    constructor <;> linarith
  have hd : x - (n : ℚ) = 1 / 2 := by rw [hx]; ring
  unfold roundEven
  rw [hf, hd, if_neg (lt_irrefl _), if_neg (lt_irrefl _), if_pos hn]

/-- `2^53 + 1` is not a `float64`: it rounds to `2^53`. -/
theorem toFloat64_two_pow_53_succ : toFloat64 (((2 ^ 53 + 1 : Int)) : ℚ) = 2 ^ 53 := by
  rw [toFloat64_at 53 (by norm_num) (by norm_num),
    roundEven_tie_even (n := 2 ^ 52) (by norm_num) (by norm_num)]
  norm_num

theorem roundEven_of_ceil {x : ℚ} {n : Int} (h1 : x < n) (h2 : (n : ℚ) - x < 1 / 2) :
    roundEven x = n := by
  have hf : ⌊x⌋ = n - 1 := by
    rw [Int.floor_eq_iff]
    push_cast
    constructor <;> linarith
  have hc : ((n - 1 : Int) : ℚ) = (n : ℚ) - 1 := by push_cast; ring
  unfold roundEven
  rw [hf, hc, if_neg (not_lt.mpr (by linarith)), if_pos (by linarith)]
  ring

/-- `2^63 - 2` is not a `float64`: it rounds to `2^63`. -/
theorem toFloat64_two_pow_63_sub_two : toFloat64 (((2 ^ 63 - 2 : Int)) : ℚ) = 2 ^ 63 := by
  rw [toFloat64_at 62 (by norm_num) (by norm_num),
    roundEven_of_ceil (n := 2 ^ 53) (by norm_num) (by norm_num)]
  norm_num

theorem toFloat64_neg_two_pow_63 : toFloat64 (((-(2 ^ 63) : Int)) : ℚ) = -(2 ^ 63) := by
  have := toFloat64_exact (x := ((-(2 ^ 63) : Int) : ℚ)) 63 (-(2 ^ 52)) (by norm_num)
    (by norm_num) (by norm_num)
  simpa using this

theorem toFloat64_neg_one : toFloat64 (-1) = -1 :=
  toFloat64_exact 0 (-(2 ^ 52))
    (by rw [abs_neg, abs_of_pos (by norm_num)]; norm_num)
    (by rw [abs_neg, abs_of_pos (by norm_num)]; norm_num) (by norm_num)

theorem toFloat64_neg_hundred : toFloat64 (-100) = -100 :=
  toFloat64_exact 6 (-(25 * 2 ^ 48))
    (by rw [abs_neg, abs_of_pos (by norm_num)]; norm_num)
    (by rw [abs_neg, abs_of_pos (by norm_num)]; norm_num) (by norm_num)

/-! ## `compareStats`: bounds and the score 100 -/

theorem commonTerm_le (b : List (List Rune × Int)) (e : List Rune × Int) (he : 0 ≤ e.2) :
    commonTerm b e ≤ e.2 := by
  unfold commonTerm
  cases lookupList b e.1 with
  | none => exact he
  | some c => exact min_le_left e.2 c

theorem commonTerm_nonneg (b : List (List Rune × Int)) (hb : ∀ e ∈ b, 1 ≤ e.2)
    (e : List Rune × Int) (he : 0 ≤ e.2) : 0 ≤ commonTerm b e := by
  unfold commonTerm
  cases h : lookupList b e.1 with
  | none => exact le_refl 0
  | some c =>
    have hc := hb _ (lookupList_mem h)
    simp only at hc ⊢
    unfold min
    split <;> omega

theorem commonExact_le_left (a b : AnalysisResult) (ha : RecordInv a) :
    commonExact a b ≤ a.WordCount := by
  rw [commonExact, ha.1, sumValues]
  exact List.sum_le_sum fun e he => commonTerm_le _ e (by have := ha.2 e he; omega)

theorem commonExact_le_right (a b : AnalysisResult) (hb : RecordInv b) :
    commonExact a b ≤ b.WordCount := by
  rw [commonExact_symm]
  exact commonExact_le_left b a hb

theorem commonExact_nonneg (a b : AnalysisResult) (ha : RecordInv a) (hb : RecordInv b) :
    0 ≤ commonExact a b := by
  rw [commonExact]
  exact List.sum_nonneg fun x hx => by
    obtain ⟨e, he, rfl⟩ := List.mem_map.mp hx
    exact commonTerm_nonneg _ hb.2 e (by have := ha.2 e he; omega)

/-- C1 (as amended). For all pairs of analysis records, that is records that satisfy the
record invariants as every record built by `analyzeText` does, whose word counts add up to
less than `2^63`, so that the sum `a.WordCount + b.WordCount` does not wrap, the similarity
score lies in the closed range from 0 to 100. -/
theorem compareStats_bounds (a b : AnalysisResult) (ha : RecordInv a) (hb : RecordInv b)
    (hsize : a.WordCount + b.WordCount < 2 ^ 63) :
    0 ≤ compareStats a b ∧ compareStats a b ≤ 100 := by
  have h0 := commonExact_nonneg a b ha hb
  have h1 := commonExact_le_left a b ha
  have h2 := commonExact_le_right a b hb
  have hc : wrapInt (commonExact a b) = commonExact a b := wrapInt_of_range (by omega) (by omega)
  have h2c : wrapInt (2 * commonExact a b) = 2 * commonExact a b :=
    wrapInt_of_range (by omega) (by omega)
  have ht : wrapInt (a.WordCount + b.WordCount) = a.WordCount + b.WordCount :=
    wrapInt_of_range (by omega) (by omega)
  unfold compareStats
  rw [commonWords_eq, hc, h2c, ht]
  simp only
  by_cases hz : a.WordCount + b.WordCount = 0
  · rw [if_pos hz]
    exact ⟨le_refl 0, by norm_num⟩
  · rw [if_neg hz]
    exact score_bounds (2 * commonExact a b) (a.WordCount + b.WordCount) (by omega) (by omega)
      (by omega)

theorem sum_eq_pointwise {α : Type} (l : List α) (f g : α → Int) (hle : ∀ e ∈ l, f e ≤ g e)
    (hsum : (l.map f).sum = (l.map g).sum) : ∀ e ∈ l, f e = g e := by
  induction l with
  | nil => simp
  | cons x l ih =>
    have hx := hle x (List.mem_cons_self _ _)
    have hl : ∀ e ∈ l, f e ≤ g e := fun e he => hle e (List.mem_cons_of_mem _ he)
    have hs := List.sum_le_sum hl
    simp only [List.map_cons, List.sum_cons] at hsum
    intro e he
    rcases List.mem_cons.mp he with h | h
    · subst h; omega
    · exact ih hl (by omega) e h

/-- When the common count reaches `a.WordCount`, every pair of `a` is matched in `b`
by a count that is at least as large. -/
theorem covered_of_commonExact_eq (a b : AnalysisResult) (ha : RecordInv a)
    (h : commonExact a b = a.WordCount) :
    ∀ w x, a.WordFrequency.get? w = some x →
      ∃ c, b.WordFrequency.get? w = some c ∧ x ≤ c := by
  rw [commonExact, ha.1, sumValues] at h
  have hpt := sum_eq_pointwise a.WordFrequency.entries (commonTerm b.WordFrequency.entries)
    Prod.snd (fun e he => commonTerm_le _ e (by have := ha.2 e he; omega)) h
  intro w x hw
  have hmem := lookupList_mem hw
  have hterm := hpt _ hmem
  have hx := ha.2 _ hmem
  unfold commonTerm at hterm
  simp only at hterm hx
  unfold GoMap.get?
  cases hl : lookupList b.WordFrequency.entries w with
  | none => rw [hl] at hterm; simp only at hterm; omega
  | some c =>
    rw [hl] at hterm
    exact ⟨c, rfl, (min_eq_left_iff x c).mp hterm⟩

theorem tables_eq_of_covered (a b : AnalysisResult)
    (hab : ∀ w x, a.WordFrequency.get? w = some x →
      ∃ c, b.WordFrequency.get? w = some c ∧ x ≤ c)
    (hba : ∀ w x, b.WordFrequency.get? w = some x →
      ∃ c, a.WordFrequency.get? w = some c ∧ x ≤ c) :
    ∀ w, a.WordFrequency.get? w = b.WordFrequency.get? w := by
  intro w
  cases hA : a.WordFrequency.get? w with
  | none =>
    cases hB : b.WordFrequency.get? w with
    | none => rfl
    | some y =>
      obtain ⟨c, hc, _⟩ := hba w y hB
      rw [hA] at hc
      cases hc
  | some x =>
    obtain ⟨c, hc, hxc⟩ := hab w x hA
    obtain ⟨c', hc', hcc'⟩ := hba w c hc
    rw [hA] at hc'
    cases hc'
    rw [hc]
    congr 1
    omega

theorem commonExact_of_tables_eq (a b : AnalysisResult)
    (h : ∀ w, a.WordFrequency.get? w = b.WordFrequency.get? w) :
    commonExact a b = sumValues a.WordFrequency := by
  rw [commonExact, sumValues]
  congr 1
  apply List.map_congr_left
  intro e he
  have h1 : lookupList a.WordFrequency.entries e.1 = some e.2 :=
    lookupList_of_mem a.WordFrequency.nodupKeys he
  have h2 : lookupList b.WordFrequency.entries e.1 = some e.2 := by
    have := h e.1
    unfold GoMap.get? at this
    rw [← this, h1]
  unfold commonTerm
  rw [h2]
  exact min_self e.2

/-- For records that satisfy the invariants and hold at most `2^53` words together, the
score is 100 exactly when twice the common count is the sum of the word counts. -/
theorem score_eq_100_iff (a b : AnalysisResult) (ha : RecordInv a) (hb : RecordInv b)
    (hsize : a.WordCount + b.WordCount ≤ 2 ^ 53) :
    compareStats a b = 100
      ↔ a.WordCount + b.WordCount ≠ 0 ∧ 2 * commonExact a b = a.WordCount + b.WordCount := by
  have h0 := commonExact_nonneg a b ha hb
  have h1 := commonExact_le_left a b ha
  have h2 := commonExact_le_right a b hb
  have hc : wrapInt (commonExact a b) = commonExact a b := wrapInt_of_range (by omega) (by omega)
  have h2c : wrapInt (2 * commonExact a b) = 2 * commonExact a b :=
    wrapInt_of_range (by omega) (by omega)
  have ht : wrapInt (a.WordCount + b.WordCount) = a.WordCount + b.WordCount :=
    wrapInt_of_range (by omega) (by omega)
  unfold compareStats
  rw [commonWords_eq, hc, h2c, ht]
  simp only
  by_cases hz : a.WordCount + b.WordCount = 0
  · rw [if_pos hz]
    constructor
    · intro h
      norm_num at h
    · intro h
      exact absurd hz h.1
  · rw [if_neg hz]
    have hs := score_float64 (commonExact a b) (a.WordCount + b.WordCount) h0 (by omega)
      (by omega) hsize
    rw [hs.2.2]
    constructor
    · intro h
      exact ⟨hz, h⟩
    · intro h
      exact h.2

/-- C5 (as amended). For all records that satisfy the record invariants and hold at most
`2^53` words together, the score is exactly 100 only when the two word counts are equal and
the two `WordFrequency` tables are equal token by token; conversely two such records with
equal, non-empty tables score exactly 100. -/
theorem compareStats_eq_100 (a b : AnalysisResult) (ha : RecordInv a) (hb : RecordInv b)
    (hsize : a.WordCount + b.WordCount ≤ 2 ^ 53) :
    (compareStats a b = 100 →
        a.WordCount = b.WordCount
          ∧ ∀ w, a.WordFrequency.get? w = b.WordFrequency.get? w)
      ∧ ((∀ w, a.WordFrequency.get? w = b.WordFrequency.get? w) →
          a.WordFrequency.entries ≠ [] → compareStats a b = 100) := by
  constructor
  · intro h
    obtain ⟨_, h2⟩ := (score_eq_100_iff a b ha hb hsize).mp h
    have h1 := commonExact_le_left a b ha
    have h3 := commonExact_le_right a b hb
    have hca : commonExact a b = a.WordCount := by omega
    have hcb : commonExact b a = b.WordCount := by rw [commonExact_symm b a]; omega
    refine ⟨by omega, ?_⟩
    exact tables_eq_of_covered a b (covered_of_commonExact_eq a b ha hca)
      (covered_of_commonExact_eq b a hb hcb)
  · intro h hne
    rw [score_eq_100_iff a b ha hb hsize]
    have hca : commonExact a b = a.WordCount := by
      rw [commonExact_of_tables_eq a b h, ha.1]
    have hcb : commonExact a b = b.WordCount := by
      rw [commonExact_symm, commonExact_of_tables_eq b a (fun w => (h w).symm), hb.1]
    have hpos : 1 ≤ a.WordCount := by
      rw [ha.1, sumValues]
      cases hl : a.WordFrequency.entries with
      | nil => exact absurd hl hne
      | cons e l =>
        have he := ha.2 e (by rw [hl]; exact List.mem_cons_self _ _)
        have hrest : 0 ≤ (l.map Prod.snd).sum := List.sum_nonneg fun x hx => by
          obtain ⟨e', he', rfl⟩ := List.mem_map.mp hx
          have := ha.2 e' (by rw [hl]; exact List.mem_cons_of_mem _ he')
          omega
        simp only [List.map_cons, List.sum_cons]
        omega
    constructor <;> omega

/-- A record that satisfies the invariants and has at least one word and fewer than `2^63`
scores 100 against itself; without words it scores 0. -/
theorem compareStats_self (r : AnalysisResult) (hr : RecordInv r) :
    (1 ≤ r.WordCount → r.WordCount < 2 ^ 63 → compareStats r r = 100)
      ∧ (r.WordCount = 0 → compareStats r r = 0) := by
  have hce : commonExact r r = r.WordCount := by
    rw [commonExact_of_tables_eq r r (fun _ => rfl), ← hr.1]
  constructor
  · intro h1 h2
    have hc : wrapInt r.WordCount = r.WordCount := wrapInt_of_range (by omega) (by omega)
    have ht : wrapInt (r.WordCount + r.WordCount) ≠ 0 := by
      unfold wrapInt
      omega
    have h2c : wrapInt (2 * r.WordCount) = wrapInt (r.WordCount + r.WordCount) := by
      rw [two_mul]
    have hq : ((wrapInt (r.WordCount + r.WordCount) : Int) : ℚ) ≠ 0 := by exact_mod_cast ht
    unfold compareStats
    rw [commonWords_eq, hce, hc, h2c]
    simp only
    rw [if_neg ht, div_self (toFloat64_ne_zero hq), toFloat64_one, one_mul, toFloat64_hundred]
  · intro h
    have ht : wrapInt (r.WordCount + r.WordCount) = 0 := by
      rw [h]
      decide
    unfold compareStats
    simp only
    rw [if_pos ht]

theorem foxRecord_inv : RecordInv foxRecord := by
  unfold RecordInv sumValues foxRecord
  decide

theorem xofRecord_inv : RecordInv xofRecord := by
  unfold RecordInv sumValues xofRecord
  decide

theorem dogRecord_inv : RecordInv dogRecord := by
  unfold RecordInv sumValues dogRecord
  decide

theorem hugeA_inv : RecordInv hugeA := by
  unfold RecordInv sumValues hugeA
  decide

theorem hugeB_inv : RecordInv hugeB := by
  unfold RecordInv sumValues hugeB
  decide

theorem bigA_inv : RecordInv bigA := by
  unfold RecordInv sumValues bigA
  decide

theorem bigB_inv : RecordInv bigB := by
  unfold RecordInv sumValues bigB
  decide

/-- C1, a concrete pair of records that satisfy the record invariants, hold 6 words
together, and whose score lies between 0 and 100. -/
theorem compareStats_bounds_witness :
    RecordInv foxRecord ∧ RecordInv dogRecord
      ∧ foxRecord.WordCount + dogRecord.WordCount < 2 ^ 63
      ∧ 0 ≤ compareStats foxRecord dogRecord ∧ compareStats foxRecord dogRecord ≤ 100 :=
  ⟨foxRecord_inv, dogRecord_inv, by decide,
    compareStats_bounds foxRecord dogRecord foxRecord_inv dogRecord_inv (by decide)⟩

/-- The score of `hugeA` against `hugeB`: the sum of the word counts `2^62 + 2^62` wraps to
`-2^63`, twice the common count `2^63 - 2` rounds to `2^63`, and the quotient `-1` gives
`-100`. -/
theorem compareStats_huge : compareStats hugeA hugeB = -100 := by
  have hc : commonWords hugeA hugeB = 2 ^ 62 - 1 := by decide
  have ht : wrapInt (hugeA.WordCount + hugeB.WordCount) = -(2 ^ 63) := by decide
  have h2c : wrapInt (2 * (2 ^ 62 - 1)) = 2 ^ 63 - 2 := by decide
  unfold compareStats
  rw [hc, ht, h2c]
  simp only
  rw [if_neg (by decide), toFloat64_two_pow_63_sub_two, toFloat64_neg_two_pow_63,
    show ((2 : ℚ) ^ 63 / -(2 ^ 63)) = -1 by norm_num, toFloat64_neg_one,
    show ((-1 : ℚ)) * 100 = -100 by norm_num, toFloat64_neg_hundred]

/-- C5, at two records with the same words stored in another order, and both directions at
once: the invariants hold, the records hold 6 words together, and the score is 100. -/
theorem compareStats_eq_100_witness :
    RecordInv foxRecord ∧ RecordInv xofRecord
      ∧ foxRecord.WordCount + xofRecord.WordCount ≤ 2 ^ 53
      ∧ ((compareStats foxRecord xofRecord = 100 →
            foxRecord.WordCount = xofRecord.WordCount
              ∧ ∀ w, foxRecord.WordFrequency.get? w = xofRecord.WordFrequency.get? w)
          ∧ ((∀ w, foxRecord.WordFrequency.get? w = xofRecord.WordFrequency.get? w) →
              foxRecord.WordFrequency.entries ≠ [] → compareStats foxRecord xofRecord = 100)) :=
  ⟨foxRecord_inv, xofRecord_inv, by decide,
    compareStats_eq_100 foxRecord xofRecord foxRecord_inv xofRecord_inv (by decide)⟩

/-- The score of `bigA` against `bigB`: twice the common count is `2^53`, the sum of the
word counts `2^53 + 1` is no `float64` and rounds to `2^53`, and the quotient is 1. -/
theorem compareStats_big : compareStats bigA bigB = 100 := by
  have hc : commonWords bigA bigB = 2 ^ 52 := by decide
  have ht : wrapInt (bigA.WordCount + bigB.WordCount) = 2 ^ 53 + 1 := by decide
  have h2c : wrapInt (2 * 2 ^ 52) = 2 ^ 53 := by decide
  unfold compareStats
  rw [hc, ht, h2c]
  simp only
  rw [if_neg (by decide), toFloat64_intCast (n := 2 ^ 53) (by norm_num) (le_refl _),
    toFloat64_two_pow_53_succ,
    show (((2 ^ 53 : Int) : ℚ) / 2 ^ 53) = 1 by norm_num, toFloat64_one, one_mul,
    toFloat64_hundred]

/-! ## `compareHandler` -/

theorem TrimPrefix_comparePath (fileID : GoString) :
    TrimPrefix (comparePath fileID) (ascii "/compare/") = fileID := by
  unfold TrimPrefix comparePath
  have h : (ascii "/compare/").isPrefixOf (ascii "/compare/" ++ fileID) = true :=
    List.isPrefixOf_iff_prefix.mpr (List.prefix_append _ _)
  rw [if_pos h, List.drop_left]

theorem compareHandler_comparePath (fileStats : Index) (fileID : GoString) :
    compareHandler fileStats (comparePath fileID)
      = if fileID = [] then Response.error "File ID required" StatusBadRequest
        else findMatches fileStats fileID := by
  unfold compareHandler
  rw [TrimPrefix_comparePath]

/-- The value the loop of `compareHandler` leaves under `id`. -/
theorem get?_foldl_compareStep (fileID : GoString) (currentStats : AnalysisResult)
    (l : List (GoString × AnalysisResult)) (hl : (l.map Prod.fst).Nodup)
    (results : GoMap GoString ℚ) (id : GoString) :
    (l.foldl (compareStep fileID currentStats) results).get? id
      = match lookupList l id with
        | some stats =>
          if id ≠ fileID ∧ compareStats currentStats stats = 100 then
            some (compareStats currentStats stats)
          else results.get? id
        | none => results.get? id := by
  induction l generalizing results with
  | nil => simp [lookupList]
  | cons p l ih =>
    obtain ⟨k, r⟩ := p
    rw [List.map_cons, List.nodup_cons] at hl
    rw [List.foldl_cons, ih hl.2]
    by_cases hk : k = id
    · subst hk
      have hn : lookupList l k = none := (lookupList_eq_none_iff l k).mpr hl.1
      simp only [hn, lookupList, if_true]
      unfold compareStep
      by_cases h1 : k ≠ fileID
      · by_cases h2 : compareStats currentStats r = 100
        · simp only [h1, h2, ne_eq, not_false_eq_true, if_true, and_self, GoMap.get?_set_self]
        · simp only [h1, h2, ne_eq, not_false_eq_true, if_true, if_false, and_false]
      · simp only [h1, if_false, false_and]
    · have hstep : (compareStep fileID currentStats results (k, r)).get? id = results.get? id := by
        unfold compareStep
        have hne : id ≠ k := fun e => hk e.symm
        by_cases h1 : k ≠ fileID
        · by_cases h2 : compareStats currentStats r = 100
          · simp only [h1, h2, ne_eq, not_false_eq_true, if_true]
            exact GoMap.get?_set_ne _ _ hne
          · simp only [h1, h2, ne_eq, not_false_eq_true, if_true, if_false]
        · simp only [h1, if_false]
      simp only [lookupList, hk, if_false, hstep]

/-- C10. For every index and every query fingerprint `q` present in it, the mapping that
the scan of `compareHandler` returns (and that `compareHandler` answers with on the path
of a non-empty `q`) has as its keys exactly the stored fingerprints other than `q` whose
record has similarity 100 with the record of `q`, each mapped to the score 100; `q` itself
is never a key, and no record that scores below 100 is reported. -/
theorem findMatches_exact (fileStats : Index) (q : GoString) (currentStats : AnalysisResult)
    (hq : fileStats.get? q = some currentStats) :
    ∃ results, findMatches fileStats q = Response.ok results
      ∧ (q ≠ [] → compareHandler fileStats (comparePath q) = Response.ok results)
      ∧ (∀ id, id ∈ results.keys ↔
          id ≠ q ∧ ∃ stats, fileStats.get? id = some stats
            ∧ compareStats currentStats stats = 100)
      ∧ (∀ id score, results.get? id = some score → score = 100)
      ∧ q ∉ results.keys := by
  have hfind : findMatches fileStats q
      = Response.ok (fileStats.entries.foldl (compareStep q currentStats) GoMap.empty) := by
    unfold findMatches
    rw [hq]
  refine ⟨fileStats.entries.foldl (compareStep q currentStats) GoMap.empty, hfind, ?_, ?_, ?_, ?_⟩
  · intro hne
    rw [compareHandler_comparePath, if_neg hne, hfind]
  · intro id
    rw [← not_iff_not, ← GoMap.get?_eq_none_iff,
      get?_foldl_compareStep q currentStats _ fileStats.nodupKeys]
    unfold GoMap.get?
    cases lookupList fileStats.entries id with
    | none => simp [GoMap.empty, lookupList]
    | some stats =>
      by_cases h : id ≠ q ∧ compareStats currentStats stats = 100
      · simp [h]
      · simp only [h, if_false, GoMap.empty, lookupList, true_iff]
        rintro ⟨h1, stats', h2, h3⟩
        cases h2
        exact h ⟨h1, h3⟩
  · intro id score h
    rw [get?_foldl_compareStep q currentStats _ fileStats.nodupKeys] at h
    cases hl : lookupList fileStats.entries id with
    | none => rw [hl] at h; simp [GoMap.get?, GoMap.empty, lookupList] at h
    | some stats =>
      rw [hl] at h
      by_cases hc : id ≠ q ∧ compareStats currentStats stats = 100
      · simp only [hc, ne_eq, not_false_eq_true, and_self, if_true, Option.some.injEq] at h
        exact h.symm
      · simp only [hc, if_false] at h
        simp [GoMap.get?, GoMap.empty, lookupList] at h
  · rw [← GoMap.get?_eq_none_iff, get?_foldl_compareStep q currentStats _ fileStats.nodupKeys]
    cases lookupList fileStats.entries q with
    | none => simp [GoMap.get?, GoMap.empty, lookupList]
    | some stats => simp [GoMap.get?, GoMap.empty, lookupList]

/-- C10, at `sampleIndex` and the fingerprint of `foxRecord`, which is present. -/
theorem findMatches_exact_witness :
    sampleIndex.get? (ascii "f0") = some foxRecord
      ∧ ∃ results, findMatches sampleIndex (ascii "f0") = Response.ok results
        ∧ (ascii "f0" ≠ [] →
            compareHandler sampleIndex (comparePath (ascii "f0")) = Response.ok results)
        ∧ (∀ id, id ∈ results.keys ↔
            id ≠ ascii "f0" ∧ ∃ stats, sampleIndex.get? id = some stats
              ∧ compareStats foxRecord stats = 100)
        ∧ (∀ id score, results.get? id = some score → score = 100)
        ∧ ascii "f0" ∉ results.keys :=
  ⟨rfl, findMatches_exact sampleIndex (ascii "f0") foxRecord rfl⟩

/-- C6 (as amended). For every index and every non-empty fingerprint, `compareHandler`
answers NotFound (404) exactly when the fingerprint is not a key of the index, and
otherwise succeeds (200) with a score mapping; for the empty fingerprint it answers
InvalidInput (400) whatever the index holds, and the two failures have different codes. -/
theorem compareHandler_notFound (fileStats : Index) (fileID : GoString) (hne : fileID ≠ []) :
    ((compareHandler fileStats (comparePath fileID)).status = StatusNotFound
        ↔ fileID ∉ fileStats.keys)
      ∧ (fileID ∈ fileStats.keys →
          ∃ results, compareHandler fileStats (comparePath fileID) = Response.ok results)
      ∧ compareHandler fileStats (comparePath []) = Response.error "File ID required" StatusBadRequest
      ∧ StatusNotFound ≠ StatusBadRequest := by
  rw [compareHandler_comparePath, compareHandler_comparePath, if_neg hne, if_pos rfl,
    ← GoMap.get?_eq_none_iff]
  unfold findMatches
  refine ⟨?_, ?_, rfl, by decide⟩
  · cases fileStats.get? fileID with
    | none => simp [Response.status]
    | some r => simp [Response.status, StatusOK, StatusNotFound]
  · intro hmem
    cases h : fileStats.get? fileID with
    | none => exact absurd ((GoMap.get?_eq_none_iff _ _).mp h) (not_not.mpr hmem)
    | some r => exact ⟨_, rfl⟩

/-- C6, at `sampleIndex` and the non-empty fingerprint "deadbeef", which it does not hold. -/
theorem compareHandler_notFound_witness :
    ascii "deadbeef" ≠ []
      ∧ (((compareHandler sampleIndex (comparePath (ascii "deadbeef"))).status = StatusNotFound
          ↔ ascii "deadbeef" ∉ sampleIndex.keys)
        ∧ (ascii "deadbeef" ∈ sampleIndex.keys →
            ∃ results,
              compareHandler sampleIndex (comparePath (ascii "deadbeef")) = Response.ok results)
        ∧ compareHandler sampleIndex (comparePath [])
            = Response.error "File ID required" StatusBadRequest
        ∧ StatusNotFound ≠ StatusBadRequest) :=
  ⟨by decide, compareHandler_notFound sampleIndex (ascii "deadbeef") (by decide)⟩

/-- C6 as stated fails at the empty fingerprint: it is not a key of the empty index, and
the answer is 400, not 404. -/
theorem compareHandler_notFound_counterexample :
    ¬ ((compareHandler GoMap.empty (comparePath [])).status = StatusNotFound
        ↔ [] ∉ (GoMap.empty : Index).keys) := by
  rw [compareHandler_comparePath, if_pos rfl]
  simp [Response.status, StatusBadRequest, StatusNotFound, GoMap.keys, GoMap.empty]

/-! ## `analyzeHandler` -/

/-- The record `analyzeHandler` stores and returns for `content`. -/
theorem analyzeHandler_some (U : UnicodeTables) (sha256Hex : GoString → GoString)
    (fileStats : Index) (content : GoString) :
    analyzeHandler U sha256Hex fileStats (some content)
      = (Response.ok
          { analyzeText U sha256Hex content with
            Fingerprint := generateFingerprint sha256Hex content },
        fileStats.set (generateFingerprint sha256Hex content)
          { analyzeText U sha256Hex content with
            Fingerprint := generateFingerprint sha256Hex content }) := rfl

theorem analyzedTwice_eq (U : UnicodeTables) (sha256Hex : GoString → GoString)
    (fileStats : Index) (content : GoString) :
    analyzedTwice U sha256Hex fileStats content
      = (analyzeHandler U sha256Hex fileStats (some content)).2 := by
  unfold analyzedTwice
  simp only [analyzeHandler_some, GoMap.set_set]

theorem mem_keys_set {κ ν : Type} [DecidableEq κ] (m : GoMap κ ν) (k : κ) (v : ν) :
    k ∈ (m.set k v).keys := by
  have h := (GoMap.get?_eq_none_iff (m.set k v) k).not
  rw [GoMap.get?_set_self] at h
  exact not_not.mp (h.mp (by simp))

theorem countP_key {κ ν : Type} [DecidableEq κ] (l : List (κ × ν))
    (hl : (l.map Prod.fst).Nodup) (k : κ) (hk : k ∈ l.map Prod.fst) :
    l.countP (fun e => e.1 = k) = 1 := by
  induction l with
  | nil => simp at hk
  | cons p l ih =>
    obtain ⟨k', v⟩ := p
    rw [List.map_cons, List.nodup_cons] at hl
    rw [List.countP_cons]
    by_cases h : k' = k
    · subst h
      have h0 : l.countP (fun e => e.1 = k') = 0 := by
        rw [List.countP_eq_zero]
        intro e he hek
        exact hl.1 (List.mem_map.mpr ⟨e, he, by simpa using hek⟩)
      simp [h0]
    · have hk' : k ∈ l.map Prod.fst := by
        rcases List.mem_cons.mp hk with h1 | h1
        · exact absurd h1.symm h
        · exact h1
      simp [ih hl.2 hk', h]

/-- C8. `analyzeHandler` is idempotent on the index: for every index and every byte
sequence, two calls with the same bytes return two records equal in every field, and the
index after the second call equals the index after the first call; it holds exactly one
record under the fingerprint of the bytes, the record returned, and every other key is as
it was before the calls. -/
theorem analyzeHandler_idempotent (U : UnicodeTables) (sha256Hex : GoString → GoString)
    (fileStats : Index) (content : GoString) :
    (analyzeHandler U sha256Hex (analyzeHandler U sha256Hex fileStats (some content)).2
        (some content)).1
      = (analyzeHandler U sha256Hex fileStats (some content)).1
    ∧ (analyzeHandler U sha256Hex (analyzeHandler U sha256Hex fileStats (some content)).2
        (some content)).2
      = (analyzeHandler U sha256Hex fileStats (some content)).2
    ∧ (∃ stats, (analyzeHandler U sha256Hex fileStats (some content)).1 = Response.ok stats
        ∧ stats.Fingerprint = generateFingerprint sha256Hex content
        ∧ (analyzedTwice U sha256Hex fileStats content).get?
            (generateFingerprint sha256Hex content) = some stats)
    ∧ (analyzedTwice U sha256Hex fileStats content).entries.countP
        (fun e => e.1 = generateFingerprint sha256Hex content) = 1
    ∧ ∀ k, k ≠ generateFingerprint sha256Hex content →
        (analyzedTwice U sha256Hex fileStats content).get? k = fileStats.get? k := by
  rw [analyzedTwice_eq]
  simp only [analyzeHandler_some, GoMap.set_set]
  refine ⟨trivial, trivial, ⟨_, rfl, rfl, GoMap.get?_set_self _ _ _⟩, ?_, ?_⟩
  · exact countP_key _ (GoMap.nodupKeys _) _ (mem_keys_set _ _ _)
  · intro k hk
    exact GoMap.get?_set_ne _ _ hk

/-! ## Texts without words -/

theorem analyzeText_WordCount (U : UnicodeTables) (sha256Hex : GoString → GoString)
    (content : GoString) :
    (analyzeText U sha256Hex content).WordCount
      = ((scanWords content).foldl (countWord U) (0, GoMap.empty)).1 := rfl

theorem analyzeText_UniqueWords (U : UnicodeTables) (sha256Hex : GoString → GoString)
    (content : GoString) :
    (analyzeText U sha256Hex content).UniqueWords
      = ((scanWords content).foldl (countWord U) (0, GoMap.empty)).2.len := rfl

theorem analyzeText_WordFrequency (U : UnicodeTables) (sha256Hex : GoString → GoString)
    (content : GoString) :
    (analyzeText U sha256Hex content).WordFrequency
      = ((scanWords content).foldl (countWord U) (0, GoMap.empty)).2 := rfl

theorem analyzeText_ParaCount (U : UnicodeTables) (sha256Hex : GoString → GoString)
    (content : GoString) :
    (analyzeText U sha256Hex content).ParaCount
      = if (TrimSpace (decodeRunes content)).length = 0 then (0 : Int)
        else (Count content (ascii "\n\n") : Int) + 1 := rfl

theorem scanFrom_all_space (rs : List (Rune × Nat)) (h : ∀ r ∈ rs, isSpace r.1 = true) :
    scanFrom rs [] 0 = ([], false) := by
  induction rs with
  | nil => simp [scanFrom]
  | cons r rs ih =>
    obtain ⟨c, width⟩ := r
    have hc : isSpace c = true := h (c, width) (List.mem_cons_self _ _)
    have hrest : ∀ r ∈ rs, isSpace r.1 = true := fun r hr => h r (List.mem_cons_of_mem _ hr)
    simp only [scanFrom, hc, if_true]
    exact ih hrest

theorem TrimSpace_all_space (rs : List (Rune × Nat)) (h : ∀ r ∈ rs, isSpace r.1 = true) :
    TrimSpace rs = [] := by
  unfold TrimSpace TrimFunc
  have h1 : rs.dropWhile (fun r => isSpace r.1) = [] := List.dropWhile_eq_nil_iff.mpr h
  rw [h1]
  rfl

/-- C9. For every text that is empty or consists only of white space, `analyzeText`
returns `WordCount = 0`, `UniqueWords = 0` and `ParaCount = 0`, whatever blank-line
separators the text holds, while `CharCount` is the number of code points of the text,
which is 0 for the empty text. -/
theorem analyzeText_whitespace (U : UnicodeTables) (sha256Hex : GoString → GoString)
    (content : GoString) (h : ∀ r ∈ decodeRunes content, isSpace r.1 = true) :
    (analyzeText U sha256Hex content).WordCount = 0
      ∧ (analyzeText U sha256Hex content).UniqueWords = 0
      ∧ (analyzeText U sha256Hex content).ParaCount = 0
      ∧ (analyzeText U sha256Hex content).CharCount = ((decodeRunes content).length : Int)
      ∧ (content = [] → (analyzeText U sha256Hex content).CharCount = 0) := by
  have hscan : scanWords content = [] := by
    unfold scanWords
    rw [scanFrom_all_space _ h]
  have htrim := TrimSpace_all_space _ h
  refine ⟨?_, ?_, ?_, rfl, ?_⟩
  · rw [analyzeText_WordCount, hscan]
    rfl
  · rw [analyzeText_UniqueWords, hscan]
    rfl
  · rw [analyzeText_ParaCount, htrim]
    rfl
  · intro hc
    subst hc
    rfl

/-- C9, at a text of five white-space characters that holds a blank-line separator: the
counts of words and paragraphs are 0 while `CharCount` is 5. -/
theorem analyzeText_whitespace_witness :
    (∀ r ∈ decodeRunes (ascii " \n\n\t "), isSpace r.1 = true)
      ∧ Count (ascii " \n\n\t ") (ascii "\n\n") = 1
      ∧ ∀ U sha256Hex,
        (analyzeText U sha256Hex (ascii " \n\n\t ")).WordCount = 0
          ∧ (analyzeText U sha256Hex (ascii " \n\n\t ")).UniqueWords = 0
          ∧ (analyzeText U sha256Hex (ascii " \n\n\t ")).ParaCount = 0
          ∧ (analyzeText U sha256Hex (ascii " \n\n\t ")).CharCount = 5 :=
  ⟨by decide, by decide, fun U sha256Hex =>
    have h := analyzeText_whitespace U sha256Hex (ascii " \n\n\t ") (by decide)
    ⟨h.1, h.2.1, h.2.2.1, h.2.2.2.1⟩⟩

/-! ## The word loop against the tokenization of the specification -/

/-- Without `ErrTooLong` the scanner delivers the non-empty fields between white space. -/
theorem scanFrom_eq_splitOnP (rs : List (Rune × Nat)) (word : List Rune) (n : Nat)
    (h : (scanFrom rs word n).2 = false) :
    (scanFrom rs word n).1
      = (List.splitOnP.go isSpace (rs.map Prod.fst) word).filter (fun token => token ≠ []) := by
  induction rs generalizing word n with
  | nil =>
    by_cases hw : word = []
    · subst hw
      simp [scanFrom, List.splitOnP.go]
    · have hr : word.reverse ≠ [] := fun e => hw (List.reverse_eq_nil_iff.mp e)
      by_cases hn : n < MaxScanTokenSize
      · simp [scanFrom, List.splitOnP.go, hw, hn, hr]
      · simp [scanFrom, hw, hn] at h
  | cons r rs ih =>
    obtain ⟨c, width⟩ := r
    by_cases hc : isSpace c = true
    · by_cases hw : word = []
      · subst hw
        simp only [scanFrom, hc, if_true] at h ⊢
        simp only [List.map_cons, List.splitOnP.go, hc, if_true, List.reverse_nil]
        rw [ih [] 0 h]
        simp
      · have hr : word.reverse ≠ [] := fun e => hw (List.reverse_eq_nil_iff.mp e)
        by_cases hn : n + width ≤ MaxScanTokenSize
        · simp only [scanFrom, hc, hw, hn, if_true, if_false] at h ⊢
          simp only [List.map_cons, List.splitOnP.go, hc, if_true]
          rw [ih [] 0 h]
          simp [hr]
        · simp [scanFrom, hc, hw, hn] at h
    · have hc' : isSpace c = false := by simpa using hc
      simp only [scanFrom, hc', Bool.false_eq_true, if_false] at h ⊢
      simp only [List.map_cons, List.splitOnP.go, hc', Bool.false_eq_true, if_false]
      exact ih (c :: word) (n + width) h

theorem scanWords_eq_fields (content : GoString) (h : scanErr content = false) :
    scanWords content
      = (((decodeRunes content).map Prod.fst).splitOnP isSpace).filter
          (fun token => token ≠ []) :=
  scanFrom_eq_splitOnP (decodeRunes content) [] 0 h

theorem countWord_eq (U : UnicodeTables) (st : Int × GoMap (List Rune) Int) (text : List Rune) :
    countWord U st text
      = if normalize U text = [] then st
        else (st.1 + 1, st.2.set (normalize U text) (st.2.getD (normalize U text) 0 + 1)) := by
  unfold countWord normalize
  simp only
  by_cases h : TrimFunc (stringsToLower U text) (notLetterOrNumber U) = []
  · simp [h]
  · have hpos : (TrimFunc (stringsToLower U text) (notLetterOrNumber U)).length > 0 :=
      List.length_pos.mpr h
    simp [h, hpos]

/-- The loop of `analyzeText` counts the non-empty normalized tokens, in total and word by
word. -/
theorem foldl_countWord_count (U : UnicodeTables) (toks : List (List Rune))
    (st : Int × GoMap (List Rune) Int) (w : List Rune) :
    (toks.foldl (countWord U) st).1
        = st.1 + ((((toks.map (normalize U)).filter (fun token => token ≠ [])).length : Nat) : Int)
      ∧ (toks.foldl (countWord U) st).2.getD w 0
        = st.2.getD w 0
          + ((((toks.map (normalize U)).filter (fun token => token ≠ [])).countP
              (fun token => token = w) : Nat) : Int) := by
  induction toks generalizing st with
  | nil => simp
  | cons t toks ih =>
    rw [List.foldl_cons, (ih _).1, (ih _).2, countWord_eq]
    by_cases h : normalize U t = []
    · simp [h]
    · simp only [h, if_false, List.map_cons, ne_eq, not_false_eq_true, decide_True,
        List.filter_cons_of_pos, List.length_cons, List.countP_cons]
      constructor
      · push_cast
        ring
      · by_cases hw : normalize U t = w
        · subst hw
          simp only [GoMap.getD, GoMap.get?_set_self, Option.getD_some, decide_True, if_true]
          push_cast
          ring
        · have hw' : w ≠ normalize U t := fun e => hw e.symm
          simp only [GoMap.getD, GoMap.get?_set_ne _ _ hw', hw, decide_False,
            Bool.false_eq_true, if_false]
          push_cast
          ring

theorem TrimFunc_map {α β : Type} (f : α → β) (p : β → Bool) (q : α → Bool)
    (h : ∀ a, p (f a) = q a) (l : List α) : TrimFunc (l.map f) p = (TrimFunc l q).map f := by
  have hpf : p ∘ f = q := funext h
  unfold TrimFunc
  rw [List.dropWhile_map, hpf, ← List.map_reverse, List.dropWhile_map, hpf, List.map_reverse]

theorem TrimFunc_nil {α : Type} (p : α → Bool) : TrimFunc ([] : List α) p = [] := rfl

theorem normalize_nil (U : UnicodeTables) : normalize U [] = [] := rfl

theorem filter_map_filter (g : List Rune → List Rune) (hg : g [] = [])
    (l : List (List Rune)) :
    ((l.filter (fun token => token ≠ [])).map g).filter (fun token => token ≠ [])
      = (l.map g).filter (fun token => token ≠ []) := by
  induction l with
  | nil => rfl
  | cons t l ih =>
    by_cases ht : t = []
    · subst ht
      simpa [hg] using ih
    · simp only [ne_eq, ht, not_false_eq_true, decide_True, List.filter_cons_of_pos,
        List.map_cons, List.filter_cons]
      rw [← ih]

/-- The tokenization claimed by C4 holds whenever the scanner ends without `ErrTooLong`
and lower-casing keeps letters and numbers apart from the other runes, as the Unicode case
mappings do: then `WordCount` is the number of normalized tokens of the specification and
`WordFrequency` holds for each word the number of its occurrences among them. -/
theorem analyzeText_tokens (U : UnicodeTables) (sha256Hex : GoString → GoString)
    (content : GoString)
    (hlower : ∀ r, notLetterOrNumber U (ToLower U r) = notLetterOrNumber U r)
    (herr : scanErr content = false) :
    (analyzeText U sha256Hex content).WordCount = ((specTokens U content).length : Int)
      ∧ ∀ w, (analyzeText U sha256Hex content).WordFrequency.getD w 0
          = (((specTokens U content).countP (fun token => token = w) : Nat) : Int) := by
  have hnorm : normalize U
      = fun candidate => stringsToLower U (TrimFunc candidate (notLetterOrNumber U)) :=
    funext fun t => TrimFunc_map (ToLower U) _ _ hlower t
  have hspec : specTokens U content
      = ((scanWords content).map (normalize U)).filter (fun token => token ≠ []) := by
    rw [scanWords_eq_fields content herr, filter_map_filter _ (normalize_nil U), hnorm]
    rfl
  rw [hspec]
  constructor
  · have h := (foldl_countWord_count U (scanWords content) (0, GoMap.empty) []).1
    simpa [analyzeText] using h
  · intro w
    have h := (foldl_countWord_count U (scanWords content) (0, GoMap.empty) w).2
    simpa [analyzeText, GoMap.getD, GoMap.get?, GoMap.empty, lookupList] using h

theorem asciiTables_lower (r : Nat) :
    notLetterOrNumber asciiTables (ToLower asciiTables r) = notLetterOrNumber asciiTables r := by
  unfold notLetterOrNumber IsLetter IsNumber ToLower asciiTables
  by_cases h1 : r < 0x80
  · by_cases h2 : 0x41 ≤ r ∧ r ≤ 0x5A
    · have h3 : r + 0x20 < 0x80 := by omega
      have h4 : 0x61 ≤ r + 0x20 ∧ r + 0x20 ≤ 0x7A := by omega
      simp [h1, h2, h3, h4]
    · simp [h1, h2]
  · simp [h1]

theorem analyzeText_literal (U : UnicodeTables) (sha256Hex : GoString → GoString) :
    (analyzeText U sha256Hex (ascii "Hello, hello world!\n\nBye.")).WordCount = 4
      ∧ (analyzeText U sha256Hex (ascii "Hello, hello world!\n\nBye.")).UniqueWords = 3
      ∧ (analyzeText U sha256Hex (ascii "Hello, hello world!\n\nBye.")).ParaCount = 2
      ∧ (analyzeText U sha256Hex (ascii "Hello, hello world!\n\nBye.")).CharCount = 25
      ∧ (analyzeText U sha256Hex (ascii "Hello, hello world!\n\nBye.")).WordFrequency.entries
          = [(ascii "hello", 2), (ascii "world", 1), (ascii "bye", 1)]
      ∧ specTokens U (ascii "Hello, hello world!\n\nBye.")
          = [ascii "hello", ascii "hello", ascii "world", ascii "bye"]
      ∧ scanErr (ascii "Hello, hello world!\n\nBye.") = false :=
  ⟨rfl, rfl, rfl, rfl, rfl, rfl, rfl⟩

/-- The tokenization theorem at the text of the literal scenario, with the Unicode tables
cut down to ASCII. -/
theorem analyzeText_tokens_witness :
    (∀ r, notLetterOrNumber asciiTables (ToLower asciiTables r)
        = notLetterOrNumber asciiTables r)
      ∧ scanErr (ascii "Hello, hello world!\n\nBye.") = false
      ∧ ∀ sha256Hex,
        (analyzeText asciiTables sha256Hex (ascii "Hello, hello world!\n\nBye.")).WordCount
            = ((specTokens asciiTables (ascii "Hello, hello world!\n\nBye.")).length : Int)
          ∧ ∀ w,
            (analyzeText asciiTables sha256Hex
                (ascii "Hello, hello world!\n\nBye.")).WordFrequency.getD w 0
              = (((specTokens asciiTables (ascii "Hello, hello world!\n\nBye.")).countP
                  (fun token => token = w) : Nat) : Int) :=
  ⟨asciiTables_lower, rfl, fun sha256Hex =>
    analyzeText_tokens asciiTables sha256Hex _ asciiTables_lower rfl⟩

/-! ## A token that does not fit the buffer of the scanner -/

theorem decodeFrom_replicate (n : Nat) (rest : GoString) :
    decodeFrom 0 (List.replicate n 0x61 ++ rest)
      = List.replicate n (0x61, 1) ++ decodeFrom 0 rest := by
  induction n with
  | zero => rfl
  | succ n ih =>
    rw [List.replicate_succ, List.replicate_succ, List.cons_append, List.cons_append, ← ih]
    rfl

theorem scanFrom_replicate (n : Nat) (rs : List (Rune × Nat)) (word : List Rune) (k : Nat) :
    scanFrom (List.replicate n (0x61, 1) ++ rs) word k
      = scanFrom rs (List.replicate n 0x61 ++ word) (k + n) := by
  induction n generalizing word k with
  | zero => rfl
  | succ n ih =>
    have hs : isSpace 0x61 = false := by decide
    rw [List.replicate_succ, List.cons_append]
    simp only [scanFrom, hs, Bool.false_eq_true, if_false]
    rw [ih, List.replicate_succ', List.append_assoc]
    have : k + 1 + n = k + (n + 1) := by omega
    rw [this]
    rfl

theorem scanFrom_long (n : Nat) (hn : MaxScanTokenSize ≤ n) (hpos : 0 < n)
    (rs : List (Rune × Nat)) :
    scanFrom (List.replicate n (0x61, 1) ++ (0x20, 1) :: rs) [] 0 = ([], true) := by
  have hs : isSpace 0x20 = true := by decide
  have hw : List.replicate n 0x61 ++ ([] : List Rune) ≠ [] := by
    cases n with
    | zero => omega
    | succ m => simp [List.replicate_succ]
  have hk : ¬ (0 + n + 1 ≤ MaxScanTokenSize) := by omega
  rw [scanFrom_replicate]
  simp only [scanFrom, hs, if_true, hw, if_false, hk]

theorem TrimFunc_replicate {α : Type} (p : α → Bool) (a : α) (ha : p a = false) (n : Nat) :
    TrimFunc (List.replicate n a) p = List.replicate n a := by
  have h : ∀ m, (List.replicate m a).dropWhile p = List.replicate m a := by
    intro m
    cases m with
    | zero => rfl
    | succ m => rw [List.replicate_succ, List.dropWhile_cons_of_neg (by simp [ha])]
  unfold TrimFunc
  rw [h, List.reverse_replicate, h, List.reverse_replicate]

theorem MaxScanTokenSize_pos : 0 < MaxScanTokenSize := by decide

theorem decodeRunes_longTokenText :
    decodeRunes longTokenText
      = List.replicate MaxScanTokenSize (0x61, 1) ++ (0x20, 1) :: [(0x62, 1)] := by
  unfold decodeRunes longTokenText
  rw [decodeFrom_replicate]
  rfl

theorem scanFrom_longTokenText : scanFrom (decodeRunes longTokenText) [] 0 = ([], true) := by
  rw [decodeRunes_longTokenText]
  exact scanFrom_long _ (le_refl _) MaxScanTokenSize_pos _

theorem scanWords_longTokenText : scanWords longTokenText = [] := by
  rw [scanWords, scanFrom_longTokenText]

theorem scanErr_longTokenText : scanErr longTokenText = true := by
  rw [scanErr, scanFrom_longTokenText]

theorem replicate_ne_nil : List.replicate MaxScanTokenSize (0x61 : Rune) ≠ [] := by
  intro e
  have := congrArg List.length e
  rw [List.length_replicate] at this
  exact absurd this (Nat.pos_iff_ne_zero.mp MaxScanTokenSize_pos)

theorem splitOnP_longTokenText :
    ((decodeRunes longTokenText).map Prod.fst).splitOnP isSpace
      = [List.replicate MaxScanTokenSize 0x61, [0x62]] := by
  rw [decodeRunes_longTokenText, List.map_append, List.map_replicate]
  rw [show List.map Prod.fst ((0x20, 1) :: [((0x62 : Rune), 1)]) = 0x20 :: [0x62] from rfl]
  rw [List.splitOnP_first isSpace _ (fun x hx => by
    rw [List.eq_of_mem_replicate hx]; decide) 0x20 (by decide)]
  rfl

theorem specTokens_longTokenText (U : UnicodeTables) :
    specTokens U longTokenText = [List.replicate MaxScanTokenSize 0x61, ascii "b"] := by
  have ha : notLetterOrNumber U 0x61 = false := rfl
  have hl : ToLower U 0x61 = 0x61 := rfl
  unfold specTokens
  rw [splitOnP_longTokenText]
  simp only [List.map_cons, List.map_nil, TrimFunc_replicate _ _ ha, stringsToLower,
    List.map_replicate, hl]
  rw [List.filter_cons_of_pos (by simpa using replicate_ne_nil)]
  rfl

/-- C4, the code at a text whose first token is `bufio.MaxScanTokenSize` bytes long: the
scanner ends with `ErrTooLong`, which `analyzeText` does not look at, and the record holds
no word at all, while the tokenization of the specification yields the long token and the
word "b". -/
theorem analyzeText_longToken (U : UnicodeTables) (sha256Hex : GoString → GoString) :
    scanErr longTokenText = true
      ∧ (analyzeText U sha256Hex longTokenText).WordCount = 0
      ∧ (analyzeText U sha256Hex longTokenText).UniqueWords = 0
      ∧ (analyzeText U sha256Hex longTokenText).WordFrequency.get? (ascii "b") = none
      ∧ specTokens U longTokenText = [List.replicate MaxScanTokenSize 0x61, ascii "b"] := by
  refine ⟨scanErr_longTokenText, ?_, ?_, ?_, specTokens_longTokenText U⟩
  · rw [analyzeText_WordCount, scanWords_longTokenText]
    rfl
  · rw [analyzeText_UniqueWords, scanWords_longTokenText]
    rfl
  · rw [analyzeText_WordFrequency, scanWords_longTokenText]
    rfl

/-! ## The counts stay below the length of the text -/

theorem length_decodeFrom_le (s : GoString) (skip : Nat) :
    (decodeFrom skip s).length ≤ s.length := by
  induction s generalizing skip with
  | nil => cases skip <;> simp [decodeFrom]
  | cons b s ih =>
    cases skip with
    | zero =>
      simp only [decodeFrom, List.length_cons]
      exact Nat.succ_le_succ (ih _)
    | succ k =>
      simp only [decodeFrom, List.length_cons]
      exact Nat.le_succ_of_le (ih k)

theorem length_scanFrom_le (rs : List (Rune × Nat)) (word : List Rune) (n : Nat) :
    (scanFrom rs word n).1.length ≤ rs.length + (if word = [] then 0 else 1) := by
  induction rs generalizing word n with
  | nil =>
    by_cases hw : word = []
    · simp [scanFrom, hw]
    · by_cases hn : n < MaxScanTokenSize <;> simp [scanFrom, hw, hn]
  | cons r rs ih =>
    obtain ⟨c, width⟩ := r
    by_cases hc : isSpace c = true
    · by_cases hw : word = []
      · have h := ih [] 0
        simp only [if_true] at h
        simp only [scanFrom, hc, hw, if_true, List.length_cons]
        omega
      · by_cases hn : n + width ≤ MaxScanTokenSize
        · have h := ih [] 0
          simp only [if_true] at h
          simp only [scanFrom, hc, hw, hn, if_true, if_false, List.length_cons]
          omega
        · simp [scanFrom, hc, hw, hn]
    · have hc' : isSpace c = false := by simpa using hc
      have h := ih (c :: word) (n + width)
      simp only [List.cons_ne_nil, if_false] at h
      simp only [scanFrom, hc', Bool.false_eq_true, if_false, List.length_cons]
      split <;> omega

/-- `WordCount` never exceeds the number of bytes of the text: the counts are far inside
the range in which `int` does not wrap and the conversion to `float64` is exact. -/
theorem analyzeText_WordCount_le (U : UnicodeTables) (sha256Hex : GoString → GoString)
    (content : GoString) :
    (analyzeText U sha256Hex content).WordCount ≤ (content.length : Int) := by
  have h1 := (foldl_countWord_count U (scanWords content) (0, GoMap.empty) []).1
  have h2 : (((scanWords content).map (normalize U)).filter (fun token => token ≠ [])).length
      ≤ (scanWords content).length :=
    (List.length_filter_le _ _).trans (by rw [List.length_map])
  have h3 : (scanWords content).length ≤ (decodeRunes content).length := by
    have := length_scanFrom_le (decodeRunes content) [] 0
    simpa [scanWords] using this
  have h4 : (decodeRunes content).length ≤ content.length := length_decodeFrom_le content 0
  rw [analyzeText_WordCount, h1]
  omega

/-! ## Records of very long texts -/

theorem length_xWords (n : Nat) : (xWords n).length = 2 * n + 1 := by
  induction n with
  | zero => rfl
  | succ n ih =>
    rw [xWords, List.length_cons, List.length_cons, ih]
    omega

theorem decodeFrom_x_space (rest : GoString) :
    decodeFrom 0 (0x78 :: 0x20 :: rest) = (0x78, 1) :: (0x20, 1) :: decodeFrom 0 rest := rfl

theorem decodeFrom_y_space (rest : GoString) :
    decodeFrom 0 (0x79 :: 0x20 :: rest) = (0x79, 1) :: (0x20, 1) :: decodeFrom 0 rest := rfl

theorem scanFrom_x_space (rs : List (Rune × Nat)) :
    scanFrom ((0x78, 1) :: (0x20, 1) :: rs) [] 0
      = ([0x78] :: (scanFrom rs [] 0).1, (scanFrom rs [] 0).2) := rfl

theorem scanFrom_y_space (rs : List (Rune × Nat)) :
    scanFrom ((0x79, 1) :: (0x20, 1) :: rs) [] 0
      = ([0x79] :: (scanFrom rs [] 0).1, (scanFrom rs [] 0).2) := rfl

theorem scanFrom_xWords (n : Nat) :
    scanFrom (decodeFrom 0 (xWords n)) [] 0 = (List.replicate (n + 1) [0x78], false) := by
  induction n with
  | zero => rfl
  | succ n ih =>
    rw [xWords, decodeFrom_x_space, scanFrom_x_space, ih]
    rfl

/-- The scanner delivers the `n + 1` words of `xWords n`. -/
theorem scanWords_xWords (n : Nat) : scanWords (xWords n) = List.replicate (n + 1) [0x78] := by
  rw [scanWords, decodeRunes, scanFrom_xWords]

theorem scanWords_y_xWords (n : Nat) :
    scanWords (0x79 :: 0x20 :: xWords n) = [0x79] :: List.replicate (n + 1) [0x78] := by
  rw [scanWords, decodeRunes, decodeFrom_y_space, scanFrom_y_space, scanFrom_xWords]

theorem normalize_x (U : UnicodeTables) : normalize U [0x78] = [0x78] := rfl

theorem normalize_y (U : UnicodeTables) : normalize U [0x79] = [0x79] := rfl

theorem tokens_replicate_x (U : UnicodeTables) (k : Nat) :
    ((List.replicate k [0x78]).map (normalize U)).filter (fun token => token ≠ [])
      = List.replicate k [0x78] := by
  induction k with
  | zero => rfl
  | succ k ih =>
    rw [List.replicate_succ, List.map_cons, normalize_x, List.filter_cons_of_pos (by simp), ih]

/-- A table whose values are positive holds `w` exactly when the count read with default 0
is not 0. -/
theorem get?_of_getD (m : GoMap (List Rune) Int) (hpos : ∀ e ∈ m.entries, 1 ≤ e.2)
    (w : List Rune) (v : Int) (h : m.getD w 0 = v) :
    m.get? w = if v = 0 then none else some v := by
  unfold GoMap.getD at h
  cases hg : m.get? w with
  | none =>
    rw [hg] at h
    have hv : (0 : Int) = v := h
    subst hv
    rw [if_pos rfl]
  | some x =>
    rw [hg] at h
    have hx := hpos _ (lookupList_mem hg)
    have hv : x = v := h
    subst hv
    rw [if_neg (by simp only at hx; omega)]

/-- The record of `xWords n`: `n + 1` words, all of them "x". -/
theorem analyzeText_xWords (U : UnicodeTables) (sha256Hex : GoString → GoString) (n : Nat) :
    (analyzeText U sha256Hex (xWords n)).WordCount = (n : Int) + 1
      ∧ ∀ w, (analyzeText U sha256Hex (xWords n)).WordFrequency.get? w
          = if [0x78] = w then some ((n : Int) + 1) else none := by
  have hcount := foldl_countWord_count U (scanWords (xWords n)) (0, GoMap.empty)
  constructor
  · rw [analyzeText_WordCount, (hcount []).1, scanWords_xWords, tokens_replicate_x,
      List.length_replicate]
    push_cast
    simp
  · intro w
    have hg := (hcount w).2
    rw [← analyzeText_WordFrequency U sha256Hex, scanWords_xWords, tokens_replicate_x,
      List.countP_replicate] at hg
    rw [get?_of_getD _ (analyzeText_recordInv U sha256Hex (xWords n)).2 w _ hg]
    by_cases hw : [0x78] = w
    · subst hw
      simp [GoMap.getD, GoMap.get?, GoMap.empty, lookupList]
      omega
    · simp [GoMap.getD, GoMap.get?, GoMap.empty, lookupList, hw]

/-- The record of the word "y" followed by `xWords n`: `n + 2` words, one "y" and `n + 1`
times "x". -/
theorem analyzeText_y_xWords (U : UnicodeTables) (sha256Hex : GoString → GoString) (n : Nat) :
    (analyzeText U sha256Hex (0x79 :: 0x20 :: xWords n)).WordCount = (n : Int) + 2
      ∧ ∀ w, (analyzeText U sha256Hex (0x79 :: 0x20 :: xWords n)).WordFrequency.get? w
          = if [0x79] = w then some 1 else if [0x78] = w then some ((n : Int) + 1)
            else none := by
  have hcount := foldl_countWord_count U (scanWords (0x79 :: 0x20 :: xWords n)) (0, GoMap.empty)
  have htok : ((scanWords (0x79 :: 0x20 :: xWords n)).map (normalize U)).filter
      (fun token => token ≠ []) = [0x79] :: List.replicate (n + 1) [0x78] := by
    rw [scanWords_y_xWords, List.map_cons, normalize_y, List.filter_cons_of_pos (by simp),
      tokens_replicate_x]
  constructor
  · rw [analyzeText_WordCount, (hcount []).1, htok, List.length_cons, List.length_replicate]
    push_cast
    simp
    ring
  · intro w
    have hg := (hcount w).2
    rw [← analyzeText_WordFrequency U sha256Hex, htok, List.countP_cons,
      List.countP_replicate] at hg
    rw [get?_of_getD _
      (analyzeText_recordInv U sha256Hex (0x79 :: 0x20 :: xWords n)).2 w _ hg]
    by_cases hy : [0x79] = w
    · subst hy
      simp [GoMap.getD, GoMap.get?, GoMap.empty, lookupList]
    · by_cases hx : [0x78] = w
      · subst hx
        simp [GoMap.getD, GoMap.get?, GoMap.empty, lookupList]
        omega
      · simp [GoMap.getD, GoMap.get?, GoMap.empty, lookupList, hx, hy]

theorem length_hugeTextA : hugeTextA.length < 2 ^ 63 := by
  rw [hugeTextA, length_xWords]
  norm_num

theorem length_hugeTextB : hugeTextB.length < 2 ^ 63 := by
  rw [hugeTextB, List.length_cons, List.length_cons, length_xWords]
  norm_num

theorem length_bigTextA : bigTextA.length < 2 ^ 63 := by
  rw [bigTextA, length_xWords]
  norm_num

theorem length_bigTextB : bigTextB.length < 2 ^ 63 := by
  rw [bigTextB, length_xWords]
  norm_num

/-- `hugeA` holds the word count and the table of the record of `hugeTextA`. -/
theorem analyzeText_hugeTextA (U : UnicodeTables) (sha256Hex : GoString → GoString) :
    (analyzeText U sha256Hex hugeTextA).WordCount = hugeA.WordCount
      ∧ ∀ w, (analyzeText U sha256Hex hugeTextA).WordFrequency.get? w
          = hugeA.WordFrequency.get? w := by
  have h := analyzeText_xWords U sha256Hex (2 ^ 62 - 1)
  rw [hugeTextA]
  refine ⟨?_, ?_⟩
  · rw [h.1]
    norm_num [hugeA]
  · intro w
    rw [h.2 w]
    norm_num [hugeA, GoMap.get?, lookupList, ascii]
    rfl

/-- `hugeB` holds the word count and the table of the record of `hugeTextB`. -/
theorem analyzeText_hugeTextB (U : UnicodeTables) (sha256Hex : GoString → GoString) :
    (analyzeText U sha256Hex hugeTextB).WordCount = hugeB.WordCount
      ∧ ∀ w, (analyzeText U sha256Hex hugeTextB).WordFrequency.get? w
          = hugeB.WordFrequency.get? w := by
  have h := analyzeText_y_xWords U sha256Hex (2 ^ 62 - 2)
  rw [hugeTextB]
  refine ⟨?_, ?_⟩
  · rw [h.1]
    norm_num [hugeB]
  · intro w
    rw [h.2 w]
    norm_num [hugeB, GoMap.get?, lookupList, ascii]
    rfl

/-- `bigA` holds the word count and the table of the record of `bigTextA`. -/
theorem analyzeText_bigTextA (U : UnicodeTables) (sha256Hex : GoString → GoString) :
    (analyzeText U sha256Hex bigTextA).WordCount = bigA.WordCount
      ∧ ∀ w, (analyzeText U sha256Hex bigTextA).WordFrequency.get? w
          = bigA.WordFrequency.get? w := by
  have h := analyzeText_xWords U sha256Hex (2 ^ 52)
  rw [bigTextA]
  refine ⟨?_, ?_⟩
  · rw [h.1]
    norm_num [bigA]
  · intro w
    rw [h.2 w]
    norm_num [bigA, GoMap.get?, lookupList, ascii]
    rfl

/-- `bigB` holds the word count and the table of the record of `bigTextB`. -/
theorem analyzeText_bigTextB (U : UnicodeTables) (sha256Hex : GoString → GoString) :
    (analyzeText U sha256Hex bigTextB).WordCount = bigB.WordCount
      ∧ ∀ w, (analyzeText U sha256Hex bigTextB).WordFrequency.get? w
          = bigB.WordFrequency.get? w := by
  have h := analyzeText_xWords U sha256Hex (2 ^ 52 - 1)
  rw [bigTextB]
  refine ⟨?_, ?_⟩
  · rw [h.1]
    norm_num [bigB]
  · intro w
    rw [h.2 w]
    norm_num [bigB, GoMap.get?, lookupList, ascii]
    rfl

/-- The score of the records of `hugeTextA` and `hugeTextB` is `-100`. -/
theorem compareStats_hugeText (U : UnicodeTables) (sha256Hex : GoString → GoString) :
    compareStats (analyzeText U sha256Hex hugeTextA) (analyzeText U sha256Hex hugeTextB)
      = -100 := by
  rw [compareStats_ext _ hugeA _ hugeB (analyzeText_hugeTextA U sha256Hex).1
    (analyzeText_hugeTextB U sha256Hex).1 (analyzeText_hugeTextA U sha256Hex).2
    (analyzeText_hugeTextB U sha256Hex).2]
  exact compareStats_huge

/-- The score of the records of `bigTextA` and `bigTextB` is 100. -/
theorem compareStats_bigText (U : UnicodeTables) (sha256Hex : GoString → GoString) :
    compareStats (analyzeText U sha256Hex bigTextA) (analyzeText U sha256Hex bigTextB)
      = 100 := by
  rw [compareStats_ext _ bigA _ bigB (analyzeText_bigTextA U sha256Hex).1
    (analyzeText_bigTextB U sha256Hex).1 (analyzeText_bigTextA U sha256Hex).2
    (analyzeText_bigTextB U sha256Hex).2]
  exact compareStats_big

/-- C1 as stated fails: `hugeTextA` and `hugeTextB` are texts of fewer than `2^63` bytes,
and the score of the two records `analyzeText` makes of them is `-100`, below 0. -/
theorem compareStats_bounds_counterexample :
    hugeTextA.length < 2 ^ 63 ∧ hugeTextB.length < 2 ^ 63
      ∧ ∀ (U : UnicodeTables) (sha256Hex : GoString → GoString),
        compareStats (analyzeText U sha256Hex hugeTextA) (analyzeText U sha256Hex hugeTextB)
            = -100
          ∧ ¬ (0 ≤ compareStats (analyzeText U sha256Hex hugeTextA)
                  (analyzeText U sha256Hex hugeTextB)
              ∧ compareStats (analyzeText U sha256Hex hugeTextA)
                  (analyzeText U sha256Hex hugeTextB) ≤ 100) := by
  refine ⟨length_hugeTextA, length_hugeTextB, fun U sha256Hex =>
    ⟨compareStats_hugeText U sha256Hex, ?_⟩⟩
  rw [compareStats_hugeText]
  norm_num

/-- C5 as stated fails: `bigTextA` and `bigTextB` are texts of fewer than `2^63` bytes, the
two records `analyzeText` makes of them satisfy the record invariants and score exactly
100, and their word counts, `2^52 + 1` and `2^52`, differ. -/
theorem compareStats_eq_100_counterexample :
    bigTextA.length < 2 ^ 63 ∧ bigTextB.length < 2 ^ 63
      ∧ ∀ (U : UnicodeTables) (sha256Hex : GoString → GoString),
        RecordInv (analyzeText U sha256Hex bigTextA)
          ∧ RecordInv (analyzeText U sha256Hex bigTextB)
          ∧ compareStats (analyzeText U sha256Hex bigTextA) (analyzeText U sha256Hex bigTextB)
            = 100
          ∧ ¬ ((analyzeText U sha256Hex bigTextA).WordCount
                = (analyzeText U sha256Hex bigTextB).WordCount
              ∧ ∀ w, (analyzeText U sha256Hex bigTextA).WordFrequency.get? w
                  = (analyzeText U sha256Hex bigTextB).WordFrequency.get? w) := by
  refine ⟨length_bigTextA, length_bigTextB, fun U sha256Hex =>
    ⟨analyzeText_recordInv U sha256Hex _, analyzeText_recordInv U sha256Hex _,
      compareStats_bigText U sha256Hex, ?_⟩⟩
  intro h
  have h1 := h.1
  rw [(analyzeText_bigTextA U sha256Hex).1, (analyzeText_bigTextB U sha256Hex).1] at h1
  exact absurd h1 (by decide)

/-! ## The same bytes analyzed twice -/

/-- A mapping returned by `compareHandler` never holds the fingerprint that was asked
for. -/
theorem compareHandler_self_absent (fileStats : Index) (q : GoString)
    (results : GoMap GoString ℚ)
    (h : compareHandler fileStats (comparePath q) = Response.ok results) :
    results.get? q = none := by
  rw [compareHandler_comparePath] at h
  split at h
  · cases h
  · unfold findMatches at h
    split at h
    · cases h
    · rename_i currentStats _
      cases h
      rw [get?_foldl_compareStep q currentStats _ fileStats.nodupKeys]
      cases lookupList fileStats.entries q with
      | none => simp [GoMap.get?, GoMap.empty, lookupList]
      | some stats => simp [GoMap.get?, GoMap.empty, lookupList]

theorem analyzeText_fox (U : UnicodeTables) (sha256Hex : GoString → GoString) :
    (analyzeText U sha256Hex (ascii "The quick fox")).WordCount = 3 := rfl

/-- C7 (as amended). Starting from any index, after the same document bytes are analyzed
twice in two calls, both calls return the same record under the same fingerprint; the
similarity of that record with itself is exactly 100 when the document has at least one
word (so for "The quick fox"; a Go byte slice has fewer than `2^63` bytes) and 0 when it
has none; `compareHandler` on that fingerprint
succeeds when the fingerprint is not empty, and the mapping it returns never holds that
fingerprint itself: its keys are the other stored fingerprints whose records score 100. -/
theorem analyzedTwice_compare (U : UnicodeTables) (sha256Hex : GoString → GoString)
    (fileStats : Index) (content : GoString) :
    ∃ stats,
      (analyzeHandler U sha256Hex fileStats (some content)).1 = Response.ok stats
      ∧ (analyzeHandler U sha256Hex (analyzeHandler U sha256Hex fileStats (some content)).2
          (some content)).1 = Response.ok stats
      ∧ stats.Fingerprint = generateFingerprint sha256Hex content
      ∧ (1 ≤ stats.WordCount → content.length < 2 ^ 63 → compareStats stats stats = 100)
      ∧ (stats.WordCount = 0 → compareStats stats stats = 0)
      ∧ compareStats (analyzeText U sha256Hex (ascii "The quick fox"))
          (analyzeText U sha256Hex (ascii "The quick fox")) = 100
      ∧ (generateFingerprint sha256Hex content ≠ [] →
          ∃ results,
            compareHandler (analyzedTwice U sha256Hex fileStats content)
              (comparePath (generateFingerprint sha256Hex content)) = Response.ok results)
      ∧ ∀ results,
          compareHandler (analyzedTwice U sha256Hex fileStats content)
            (comparePath (generateFingerprint sha256Hex content)) = Response.ok results →
          generateFingerprint sha256Hex content ∉ results.keys
          ∧ ∀ id, id ∈ results.keys ↔
              id ≠ generateFingerprint sha256Hex content
              ∧ ∃ other, (analyzedTwice U sha256Hex fileStats content).get? id = some other
                ∧ compareStats stats other = 100 := by
  have hinv : RecordInv { analyzeText U sha256Hex content with
      Fingerprint := generateFingerprint sha256Hex content } :=
    analyzeText_recordInv U sha256Hex content
  have hget : (analyzedTwice U sha256Hex fileStats content).get?
      (generateFingerprint sha256Hex content)
      = some { analyzeText U sha256Hex content with
          Fingerprint := generateFingerprint sha256Hex content } := by
    rw [analyzedTwice_eq, analyzeHandler_some]
    exact GoMap.get?_set_self _ _ _
  have hlen := analyzeText_WordCount_le U sha256Hex content
  refine ⟨_, rfl, ?_, rfl, ?_, (compareStats_self _ hinv).2, ?_, ?_, ?_⟩
  · simp only [analyzeHandler_some]
  · intro h1 h2
    exact (compareStats_self _ hinv).1 h1 (lt_of_le_of_lt hlen (by exact_mod_cast h2))
  · exact (compareStats_self _ (analyzeText_recordInv U sha256Hex _)).1
      (by rw [analyzeText_fox]; decide) (by rw [analyzeText_fox]; decide)
  · intro hne
    rw [compareHandler_comparePath, if_neg hne]
    unfold findMatches
    rw [hget]
    exact ⟨_, rfl⟩
  · intro results h
    refine ⟨(GoMap.get?_eq_none_iff _ _).mp (compareHandler_self_absent _ _ _ h), ?_⟩
    rw [compareHandler_comparePath] at h
    split at h
    · cases h
    · unfold findMatches at h
      rw [hget] at h
      cases h
      intro id
      rw [← not_iff_not, ← GoMap.get?_eq_none_iff,
        get?_foldl_compareStep _ _ _ (GoMap.nodupKeys _)]
      unfold GoMap.get?
      cases lookupList (analyzedTwice U sha256Hex fileStats content).entries id with
      | none => simp [GoMap.empty, lookupList]
      | some other =>
        by_cases hc : id ≠ generateFingerprint sha256Hex content
            ∧ compareStats { analyzeText U sha256Hex content with
                Fingerprint := generateFingerprint sha256Hex content } other = 100
        · simp [hc]
        · simp only [hc, if_false, GoMap.empty, lookupList, true_iff]
          rintro ⟨h1, other', h2, h3⟩
          cases h2
          exact hc ⟨h1, h3⟩

/-- C7 as stated fails: after "The quick fox" is analyzed twice starting from the empty
index, no choice of the library tables makes `compareHandler` report the fingerprint of
the document with score 100. -/
theorem analyzedTwice_compare_counterexample :
    ¬ ∃ U sha256Hex, DuplicateReported U sha256Hex GoMap.empty (ascii "The quick fox") := by
  rintro ⟨U, sha256Hex, results, h1, h2⟩
  rw [compareHandler_self_absent _ _ _ h1] at h2
  cases h2

end FileAnalysis
